import Mathlib

/-!
Verification of the in-memory transactional file store.

The Python sources are shallowly embedded:
* `src/diff_operations.py` — diff batches and their application,
  together with the parts of CPython's `difflib.SequenceMatcher`
  that `get_diff_operations` invokes (`SequenceMatcher(None, old, new)`,
  `get_opcodes`);
* `src/datastore/file_object.py` — snapshot + version log;
* `src/datastore/file_lock_manager.py` — shared/exclusive lock table;
* `src/transaction.py`, `src/transaction/transaction_manager.py` —
  the transaction engine and status registry.

Python strings are modelled as `List Char` (slicing clamps out-of-range
indices exactly as `List.take`/`List.drop` do), `datetime` timestamps as
`Nat`, raised exceptions as `Option`/`Except`, and Python's stable
`sorted` as insertion sort (stable sorting is unique, so any stable
sort is a faithful model).
-/

namespace FS

/-- Python `str`, modelled as a list of characters. -/
abbrev Str := List Char

/-- `src/diff_operations.py`: the tagged union
`ReplaceOperation | DeleteOperation | InsertOperation`.
Indices produced by the codec are nonnegative, modelled as `Nat`. -/
inductive DiffOp where
  | replace (start stop : Nat) (data : Str)
  | delete (start stop : Nat)
  | insert (start : Nat) (data : Str)
deriving DecidableEq, Repr

/-- `operation['start']`. -/
def DiffOp.start : DiffOp → Nat
  | .replace s _ _ => s
  | .delete s _ => s
  | .insert s _ => s

/-- `operation.get('end', start)`: insert operations carry no `end`. -/
def DiffOp.stop : DiffOp → Nat
  | .replace _ e _ => e
  | .delete _ e => e
  | .insert s _ => s

/-- The loop body of `apply_diff_operations`: for `replace`,
`result[:start] + data + result[end:]`; for `insert`,
`result[:start] + data + result[start:]`; for `delete`,
`result[:start] + result[end:]`. -/
def applyOne (result : Str) : DiffOp → Str
  | .replace s e data => result.take s ++ data ++ result.drop e
  | .insert s data => result.take s ++ data ++ result.drop s
  | .delete s e => result.take s ++ result.drop e

/-- `validate_operations`, which raises `ValueError` on an out-of-range
index, as a boolean test (the `start < 0` branch cannot fire for `Nat`
indices). -/
def validate_operations (content : Str) (operations : List DiffOp) : Bool :=
  operations.all fun op =>
    decide (op.start ≤ content.length) && decide (op.start ≤ op.stop) &&
      decide (op.stop ≤ content.length)

/-- `sorted(operations, key=lambda op: op['start'], reverse=True)`:
a stable descending sort by `start`, modelled by (stable) insertion
sort under the reversed comparison. -/
def sortByStartDesc (operations : List DiffOp) : List DiffOp :=
  operations.insertionSort fun u v => v.start ≤ u.start

/-- `apply_diff_operations`; a raised `ValueError` is `none`. -/
def apply_diff_operations (content : Str) (operations : List DiffOp) : Option Str :=
  if validate_operations content operations then
    some ((sortByStartDesc operations).foldl applyOne content)
  else none

/-! ### `difflib.SequenceMatcher(None, a, b)` (CPython stdlib)

`get_diff_operations` calls `SequenceMatcher(None, old, new).get_opcodes()`.
With `isjunk = None` the junk set `bjunk` is empty; `autojunk` is on, so
"popular" elements of `b` are purged from the `b2j` index. -/

/-- A `Match(a, b, size)` triple. -/
structure SMatch where
  a : Nat
  b : Nat
  size : Nat
deriving DecidableEq, Repr

/-- Ascending occurrence list of `c` in `b` (the lists held in `b2j`). -/
def indicesOf (b : Str) (c : Char) : List Nat :=
  (List.range b.length).filter fun j => b[j]? = some c

/-- `__chain_b`: occurrence lists, with popular elements purged
(autojunk: `len(b) >= 200` and strictly more than `len(b) // 100 + 1`
occurrences).  `bjunk` is empty because `isjunk = None`. -/
def b2j (b : Str) (c : Char) : List Nat :=
  let idxs := indicesOf b c
  if 200 ≤ b.length ∧ b.length / 100 + 1 < idxs.length then [] else idxs

/-- `self.bjunk.__contains__` applied to `b[j]`: constantly `false`
here since `bjunk = ∅` (`isjunk = None`). -/
def isbjunkAt (_b : Str) (_j : Nat) : Bool := false

/-- The guard `a[i] == b[j]`.  Under difflib's calling convention both
indices are in range; out-of-range lookups are mapped to `false`. -/
def charEq (a : Str) (i : Nat) (b : Str) (j : Nat) : Bool :=
  match a[i]?, b[j]? with
  | some x, some y => x == y
  | _, _ => false

/-- The `for j in b2j.get(a[i], nothing)` loop of `find_longest_match`
(`continue` below `blo`, `break` at `bhi`).  The `j2len` dictionaries
are total functions defaulting to `0`; `j2len.get(j - 1, 0)` at `j = 0`
asks for the key `-1`, which is never present, hence the `j = 0` case. -/
def flmInner (blo bhi i : Nat) (j2lenget : Nat → Nat) :
    List Nat → (Nat → Nat) → SMatch → (Nat → Nat) × SMatch
  | [], newj2len, best => (newj2len, best)
  | j :: js, newj2len, best =>
    if j < blo then flmInner blo bhi i j2lenget js newj2len best
    else if bhi ≤ j then (newj2len, best)
    else
      let k := (if j = 0 then 0 else j2lenget (j - 1)) + 1
      let newj2len' := fun j' => if j' = j then k else newj2len j'
      let best' : SMatch := if best.size < k then ⟨i + 1 - k, j + 1 - k, k⟩ else best
      flmInner blo bhi i j2lenget js newj2len' best'

/-- One row of the dynamic-programming loop: fetch `b2j.get(a[i], nothing)`
and run the inner loop with a fresh (empty) `newj2len`. -/
def flmStep (a b : Str) (blo bhi : Nat) (st : (Nat → Nat) × SMatch) (i : Nat) :
    (Nat → Nat) × SMatch :=
  let js := match a[i]? with
    | some c => b2j b c
    | none => []
  flmInner blo bhi i st.1 js (fun _ => 0) st.2

/-- The `for i in range(alo, ahi)` dynamic-programming loop of
`find_longest_match` (`besti, bestj, bestsize = alo, blo, 0`). -/
def flmLoop (a b : Str) (alo ahi blo bhi : Nat) : SMatch :=
  ((List.range' alo (ahi - alo)).foldl (flmStep a b blo bhi)
    (fun _ => 0, ⟨alo, blo, 0⟩)).2

/-- The backward extension loops of `find_longest_match`
(`while besti > alo and bestj > blo and isbjunk(b[bestj-1]) == junkFlag
and a[besti-1] == b[bestj-1]`). -/
def extendLower (a b : Str) (alo blo : Nat) (junkFlag : Bool) :
    Nat → Nat → Nat → Nat × Nat × Nat
  | bi + 1, bj + 1, bestsize =>
    if alo ≤ bi ∧ blo ≤ bj ∧ isbjunkAt b bj = junkFlag ∧ charEq a bi b bj then
      extendLower a b alo blo junkFlag bi bj (bestsize + 1)
    else (bi + 1, bj + 1, bestsize)
  | besti, bestj, bestsize => (besti, bestj, bestsize)

/-- The forward extension loops of `find_longest_match`.  The iteration
count is bounded by `ahi - besti - bestsize`, so `fuel = ahi` always
suffices (the guard requires `besti + bestsize < ahi`). -/
def extendUpper (a b : Str) (ahi bhi : Nat) (junkFlag : Bool) (besti bestj : Nat) :
    Nat → Nat → Nat
  | 0, bestsize => bestsize
  | fuel + 1, bestsize =>
    if besti + bestsize < ahi ∧ bestj + bestsize < bhi ∧
        isbjunkAt b (bestj + bestsize) = junkFlag ∧
        charEq a (besti + bestsize) b (bestj + bestsize) then
      extendUpper a b ahi bhi junkFlag besti bestj fuel (bestsize + 1)
    else bestsize

/-- `find_longest_match(alo, ahi, blo, bhi)`: the DP loop followed by the
non-junk and then the junk extension passes. -/
def find_longest_match (a b : Str) (alo ahi blo bhi : Nat) : SMatch :=
  let best := flmLoop a b alo ahi blo bhi
  let r1 := extendLower a b alo blo false best.a best.b best.size
  let s2 := extendUpper a b ahi bhi false r1.1 r1.2.1 ahi r1.2.2
  let r3 := extendLower a b alo blo true r1.1 r1.2.1 s2
  let s4 := extendUpper a b ahi bhi true r3.1 r3.2.1 ahi r3.2.2
  ⟨r3.1, r3.2.1, s4⟩

/-- The `while queue` divide-and-conquer of `get_matching_blocks`.
CPython pops subproblems from a LIFO stack and sorts the collected
blocks afterwards; this recursion emits the same set of blocks already
in ascending order (left subproblem, match, right subproblem), so it
coincides with the post-`sort()` list.  `fuel` dominates
`(ahi - alo) + (bhi - blo)`, which strictly shrinks at every recursive
call since `m.size > 0` there. -/
def matchingBlocksRec (a b : Str) : Nat → Nat → Nat → Nat → Nat → List SMatch
  | 0, _, _, _, _ => []
  | fuel + 1, alo, ahi, blo, bhi =>
    let m := find_longest_match a b alo ahi blo bhi
    if m.size = 0 then []
    else
      (if alo < m.a ∧ blo < m.b then matchingBlocksRec a b fuel alo m.a blo m.b else []) ++
      [m] ++
      (if m.a + m.size < ahi ∧ m.b + m.size < bhi then
        matchingBlocksRec a b fuel (m.a + m.size) ahi (m.b + m.size) bhi else [])

/-- The adjacent-block merging loop at the end of `get_matching_blocks`
(accumulator starts at `i1 = j1 = k1 = 0`; a pending block is emitted
only when its accumulated size is nonzero). -/
def mergeAdjacent : SMatch → List SMatch → List SMatch
  | cur, [] => if cur.size ≠ 0 then [cur] else []
  | cur, m :: rest =>
    if cur.a + cur.size = m.a ∧ cur.b + cur.size = m.b then
      mergeAdjacent ⟨cur.a, cur.b, cur.size + m.size⟩ rest
    else
      (if cur.size ≠ 0 then [cur] else []) ++ mergeAdjacent m rest

/-- `get_matching_blocks`: divide-and-conquer blocks, sorted, merged,
with the sentinel `(len(a), len(b), 0)` appended. -/
def get_matching_blocks (a b : Str) : List SMatch :=
  mergeAdjacent ⟨0, 0, 0⟩
      (matchingBlocksRec a b (a.length + b.length + 1) 0 a.length 0 b.length) ++
    [⟨a.length, b.length, 0⟩]

/-- `new[j1:j2]`. -/
def slice (s : Str) (j k : Nat) : Str := (s.take k).drop j

/-- `get_opcodes` (cursor `i, j` running over the matching blocks)
composed with the tag dispatch of `get_diff_operations`: `replace`,
`delete` and `insert` opcodes become diff operations, `equal` opcodes
are dropped. -/
def opcodeOps (bstr : Str) : Nat → Nat → List SMatch → List DiffOp
  | _, _, [] => []
  | i, j, m :: rest =>
    (if i < m.a ∧ j < m.b then [DiffOp.replace i m.a (slice bstr j m.b)]
     else if i < m.a then [DiffOp.delete i m.a]
     else if j < m.b then [DiffOp.insert i (slice bstr j m.b)]
     else []) ++
    opcodeOps bstr (m.a + m.size) (m.b + m.size) rest

/-- `get_diff_operations(old, new)`. -/
def get_diff_operations (old new : Str) : List DiffOp :=
  if old = new then []
  else opcodeOps new 0 0 (get_matching_blocks old new)

/-! ### `src/datastore/file_object.py` -/

/-- A `FileVersion` (`datetime` timestamps are modelled as `Nat`). -/
structure FileVersion where
  diff_operations : List DiffOp
  timestamp : Nat
deriving DecidableEq, Repr

/-- The mutable state of a `FileObject`.  The identity attributes
`file_id`/`file_name` are kept outside: the engine model stores file
objects in a dictionary keyed by `file_id`.  `_active_transaction_count`
is a Python `int` and `compact_file` can drive it negative, hence `Int`. -/
structure FileObject where
  snapshot : Str
  file_versions : List FileVersion
  active_transaction_count : Int
deriving DecidableEq, Repr

/-- `sorted(self._file_versions, key=lambda v: v.timestamp)`: Python's
stable sort, modelled by (stable) insertion sort. -/
def sortedVersions (l : List FileVersion) : List FileVersion :=
  l.insertionSort fun u v => u.timestamp ≤ v.timestamp

/-- The loop of `read_version_at_timestamp`: apply version diffs in order,
`break` at the first timestamp above `t`; a raised `ValueError` from
`apply_diff_operations` is `none`. -/
def applyVersionsUpTo (t : Nat) : Str → List FileVersion → Option Str
  | contents, [] => some contents
  | contents, v :: rest =>
    if t < v.timestamp then some contents
    else match apply_diff_operations contents v.diff_operations with
      | some c => applyVersionsUpTo t c rest
      | none => none

/-- `read_version_at_timestamp(timestamp)`. -/
def read_version_at_timestamp (f : FileObject) (t : Nat) : Option Str :=
  applyVersionsUpTo t f.snapshot (sortedVersions f.file_versions)

/-- `commit_version_at_timestamp(file_contents, timestamp)`: diff against
the baseline `read_version_at_timestamp(timestamp)` and append. -/
def commit_version_at_timestamp (f : FileObject) (file_contents : Str) (t : Nat) :
    Option FileObject :=
  match read_version_at_timestamp f t with
  | none => none
  | some previous_version =>
    some { f with file_versions :=
      f.file_versions ++ [⟨get_diff_operations previous_version file_contents, t⟩] }

/-- `rollback_commit(txn_start_time, txn_commit_time, rollback_time)`:
no-op when no version carries `txn_commit_time`, otherwise append the
compensating diff at `rollback_time`. -/
def rollback_commit (f : FileObject) (txn_start_time txn_commit_time rollback_time : Nat) :
    Option FileObject :=
  if f.file_versions.any fun v => v.timestamp = txn_commit_time then
    match read_version_at_timestamp f txn_start_time,
          read_version_at_timestamp f txn_commit_time with
    | some file_at_start_time, some file_at_commit_time =>
      some { f with file_versions :=
        f.file_versions ++
          [⟨get_diff_operations file_at_commit_time file_at_start_time, rollback_time⟩] }
    | _, _ => none
  else some f

/-- `increment_transaction_count`. -/
def increment_transaction_count (f : FileObject) : FileObject :=
  { f with active_transaction_count := f.active_transaction_count + 1 }

/-- `decrement_transaction_count`. -/
def decrement_transaction_count (f : FileObject) : FileObject :=
  { f with active_transaction_count := f.active_transaction_count - 1 }

/-- `compact_file(commit_time)`.  `datetime.min` is modelled by `0`, the
bottom of `Nat` timestamps; a read failure (raised `ValueError`) is
`none`.  The `_active_transaction_count -= 1` on the success path is
reproduced faithfully from the source. -/
def compact_file (f : FileObject) (commit_time : Nat) : Option (Bool × FileObject) :=
  if 0 < f.active_transaction_count then some (false, f)
  else if f.file_versions = [] then some (true, f)
  else
    let max_version_time := (f.file_versions.map FileVersion.timestamp).foldl max 0
    if commit_time < max_version_time then some (false, f)
    else match read_version_at_timestamp f commit_time with
      | none => none
      | some latest_version =>
        some (true, FileObject.mk latest_version [] (f.active_transaction_count - 1))

/-! ### `src/datastore/file_lock_manager.py` -/

inductive LockType where
  | SHARED
  | EXCLUSIVE
deriving DecidableEq, Repr

/-- A `FileLock`; the Python `Set[str]` of holders is modelled as a list
(only membership, insertion of a fresh element and removal are used, so
runs from the empty table keep it duplicate-free). -/
structure FileLock where
  lock_type : LockType
  txn_ids : List String
deriving DecidableEq, Repr

/-- Lookup in a Python `dict` modelled as an insertion-ordered
association list. -/
def alGet {β : Type} (k : String) : List (String × β) → Option β
  | [] => none
  | (k', v) :: rest => if k' = k then some v else alGet k rest

/-- `d[k] = v`: replace in place when present, else append. -/
def alSet {β : Type} (k : String) (v : β) : List (String × β) → List (String × β)
  | [] => [(k, v)]
  | (k', v') :: rest => if k' = k then (k, v) :: rest else (k', v') :: alSet k v rest

/-- `del d[k]`. -/
def alDel {β : Type} (k : String) : List (String × β) → List (String × β)
  | [] => []
  | (k', v') :: rest => if k' = k then rest else (k', v') :: alDel k rest

/-- The lock table `_locks` (the manager-wide mutex serialises calls and
adds no sequential content). -/
abbrev LockTable := List (String × FileLock)

/-- `acquire_lock(file_id, txn_id, requested_lock_type)`. -/
def acquire_lock (locks : LockTable) (file_id txn_id : String)
    (requested_lock_type : LockType) : Bool × LockTable :=
  match alGet file_id locks with
  | none => (true, alSet file_id ⟨requested_lock_type, [txn_id]⟩ locks)
  | some current_lock =>
    if txn_id ∈ current_lock.txn_ids then
      if current_lock.lock_type = LockType.SHARED ∧
          requested_lock_type = LockType.EXCLUSIVE then (false, locks)
      else (true, locks)
    else if requested_lock_type = LockType.SHARED ∧
        current_lock.lock_type = LockType.SHARED then
      (true, alSet file_id ⟨current_lock.lock_type, current_lock.txn_ids ++ [txn_id]⟩ locks)
    else (false, locks)

/-- `release_lock(file_id, txn_id)`. -/
def release_lock (locks : LockTable) (file_id txn_id : String) : LockTable :=
  match alGet file_id locks with
  | none => locks
  | some current_lock =>
    if txn_id ∈ current_lock.txn_ids then
      let remaining := current_lock.txn_ids.erase txn_id
      if remaining = [] then alDel file_id locks
      else alSet file_id ⟨current_lock.lock_type, remaining⟩ locks
    else locks

/-- One call to the lock manager, for stating reachability invariants. -/
inductive LockOp where
  | acquire (file_id txn_id : String) (requested : LockType)
  | release (file_id txn_id : String)

/-- Effect of a call on the lock table. -/
def lockStep (locks : LockTable) : LockOp → LockTable
  | .acquire fid txn req => (acquire_lock locks fid txn req).2
  | .release fid txn => release_lock locks fid txn

/-- The lock table produced by a sequence of calls from the initial
(empty) table. -/
def runLockOps (ops : List LockOp) : LockTable := ops.foldl lockStep []

/-! ### `src/transaction/transaction_manager.py` -/

inductive TransactionStatus where
  | ACTIVE | COMMITTED | ABORTED | FAILED | ROLLED_BACK | ROLLBACK_FAILED
deriving DecidableEq, Repr

structure TransactionData where
  start_time : Nat
  end_time : Option Nat
  status : TransactionStatus
deriving DecidableEq, Repr

abbrev Registry := List (String × TransactionData)

/-- `create_transaction_metadata(txn_id, start_time)`. -/
def create_transaction_metadata (r : Registry) (txn_id : String) (start_time : Nat) :
    Registry :=
  alSet txn_id ⟨start_time, none, TransactionStatus.ACTIVE⟩ r

/-- `update_transaction_metadata(txn_id, status, end_time)`; an unknown id
raises `KeyError` (`none`); an absent `end_time` keeps the stored one. -/
def update_transaction_metadata (r : Registry) (txn_id : String)
    (status : TransactionStatus) (end_time : Option Nat) : Option Registry :=
  match alGet txn_id r with
  | none => none
  | some td =>
    some (alSet txn_id
      ⟨td.start_time, match end_time with | some e => some e | none => td.end_time,
        status⟩ r)

/-- `get_transaction_status(transaction_id)`. -/
def get_transaction_status (r : Registry) (transaction_id : String) :
    Option TransactionData :=
  alGet transaction_id r

/-! ### `src/transaction.py` -/

inductive IsolationLevel where
  | READ_UNCOMMITTED | READ_COMMITTED | SNAPSHOT
deriving DecidableEq, Repr

/-- Exceptions surfaced by the engine, under the spec's error names
(`RuntimeError`/`ValueError`/`KeyError` in the source). -/
inductive EngineError where
  | InactiveTransaction
  | WriteNotPermittedAtIsolation
  | LockConflict
  | InvalidIndex
  | CommitFailed
  | Critical
  | KeyErr
deriving DecidableEq, Repr

/-- The per-transaction modification buffer `_modified_files`
(`file_id ↦ list of buffered diff batches`).  Python's `ModifiedFile`
holds an object reference; files live in `Engine.files` keyed by
`file_id`, so the buffer stores the batches under the same key. -/
abbrev Buffer := List (String × List (List DiffOp))

/-- One transaction plus the shared services it touches.  `txn_id`,
`_start_time` and `_isolation_level` are fixed at construction.
`datetime.now()` samples are explicit parameters of the operations. -/
structure Engine where
  txn_id : String
  start_time : Nat
  isolation_level : IsolationLevel
  is_active : Bool
  modified_files : Buffer
  registry : Registry
  locks : LockTable
  files : List (String × FileObject)
deriving Repr

/-- `_end_transaction(status)` (`now` is the sampled end time): deactivate,
record the status, clear the buffer. -/
def endTransaction (s : Engine) (status : TransactionStatus) (now : Nat) :
    Option Engine :=
  match update_transaction_metadata s.registry s.txn_id status (some now) with
  | none => none
  | some r =>
    some { s with is_active := false, registry := r, modified_files := [] }

/-- `_validate_txn_is_active`: on an inactive transaction, record FAILED
and raise `InactiveTransaction`. -/
def validateTxnIsActive (s : Engine) (now : Nat) : Except EngineError Unit × Engine :=
  if s.is_active then (.ok (), s)
  else match endTransaction s TransactionStatus.FAILED now with
    | none => (.error .KeyErr, s)
    | some s' => (.error .InactiveTransaction, s')

/-- `_get_file_by_isolation_level(file_object, isolation_level)`.  The
SHARED lock taken for the locking levels is released in the `finally`
block even when the read raises. -/
def getFileByIsolationLevel (s : Engine) (file_id : String)
    (isolation_level : IsolationLevel) (now : Nat) : Except EngineError Str × Engine :=
  match alGet file_id s.files with
  | none => (.error .KeyErr, s)
  | some file_object =>
    match isolation_level with
    | .READ_UNCOMMITTED =>
      match read_version_at_timestamp file_object now with
      | some c => (.ok c, s)
      | none => (.error .InvalidIndex, s)
    | lvl =>
      let acq := acquire_lock s.locks file_id s.txn_id LockType.SHARED
      if acq.1 = false then (.error .LockConflict, { s with locks := acq.2 })
      else
        let result : Except EngineError Str :=
          match lvl with
          | .SNAPSHOT =>
            match read_version_at_timestamp file_object s.start_time with
            | some c => .ok c
            | none => .error .InvalidIndex
          | _ =>
            match read_version_at_timestamp file_object now with
            | some c => .ok c
            | none => .error .InvalidIndex
        (result, { s with locks := release_lock acq.2 file_id s.txn_id })

/-- The buffered-batches replay loop of `read_file`. -/
def applyBatches : Str → List (List DiffOp) → Option Str
  | c, [] => some c
  | c, ops :: rest =>
    match apply_diff_operations c ops with
    | some c' => applyBatches c' rest
    | none => none

/-- `read_file(file_object)`. -/
def read_file (s0 : Engine) (file_id : String) (now : Nat) :
    Except EngineError Str × Engine :=
  match validateTxnIsActive s0 now with
  | (.error e, s) => (.error e, s)
  | (_, s) =>
    match getFileByIsolationLevel s file_id s.isolation_level now with
    | (.error e, s') => (.error e, s')
    | (.ok file_snapshot, s') =>
      let batches := match alGet file_id s'.modified_files with
        | some mf => mf
        | none => []
      match applyBatches file_snapshot batches with
      | some c => (.ok c, s')
      | none => (.error .InvalidIndex, s')

/-- `write_file(file_object, file_diff_operations)`. -/
def write_file (s0 : Engine) (file_id : String) (file_diff_operations : List DiffOp)
    (now : Nat) : Except EngineError Unit × Engine :=
  match validateTxnIsActive s0 now with
  | (.error e, s) => (.error e, s)
  | (_, s) =>
    if s.isolation_level = .READ_COMMITTED ∨ s.isolation_level = .READ_UNCOMMITTED then
      (.error .WriteNotPermittedAtIsolation, s)
    else
      let buf := match alGet file_id s.modified_files with
        | none => alSet file_id [] s.modified_files
        | some _ => s.modified_files
      let buf' := if file_diff_operations = [] then buf
        else match alGet file_id buf with
          | some batches => alSet file_id (batches ++ [file_diff_operations]) buf
          | none => buf
      (.ok (), { s with modified_files := buf' })

/-- The `for file_id in sorted(...)` exclusive-acquisition loop of
`commit`; returns the acquired ids so the `finally` block can release
them. -/
def acquireLoop (txn_id : String) : List String → List String → LockTable →
    Bool × List String × LockTable
  | [], acquired, locks => (true, acquired, locks)
  | fid :: rest, acquired, locks =>
    let acq := acquire_lock locks fid txn_id LockType.EXCLUSIVE
    if acq.1 then acquireLoop txn_id rest (acquired ++ [fid]) acq.2
    else (false, acquired, acq.2)

/-- The `finally` block of `commit`: release every acquired lock. -/
def releaseAll (txn_id : String) (fids : List String) (locks : LockTable) : LockTable :=
  fids.foldl (fun l fid => release_lock l fid txn_id) locks

/-- The loop of `_commit_file_changes`: per modified file, materialize
via `read_file`, append a rollback-log entry, then
`commit_version_at_timestamp`.  A failure of the latter is the caught
case (`CommitFailed`, triggering the rollback protocol); a `read_file`
failure happens outside the `try` and propagates as is. -/
def commitLoop (commit_time now : Nat) :
    Engine → List (String × List (List DiffOp)) → List String →
    Except EngineError Unit × Engine × List String
  | s, [], logs => (.ok (), s, logs)
  | s, (fid, _) :: rest, logs =>
    match read_file s fid now with
    | (.error e, s') => (.error e, s', logs)
    | (.ok updated_file, s') =>
      let logs' := logs ++ [fid]
      match alGet fid s'.files with
      | none => (.error .KeyErr, s', logs')
      | some file_object =>
        match commit_version_at_timestamp file_object updated_file commit_time with
        | none => (.error .CommitFailed, s', logs')
        | some file_object' =>
          commitLoop commit_time now
            { s' with files := alSet fid file_object' s'.files } rest logs'

/-- The loop of `_rollback`: compensate each rollback-log entry;
`none` is a raised exception (the `ROLLBACK_FAILED` path). -/
def rollbackLoop (txn_start commit_time rollback_time : Nat) :
    Engine → List String → Option Engine
  | s, [] => some s
  | s, fid :: rest =>
    match alGet fid s.files with
    | none => none
    | some file_object =>
      match rollback_commit file_object txn_start commit_time rollback_time with
      | none => none
      | some file_object' =>
        rollbackLoop txn_start commit_time rollback_time
          { s with files := alSet fid file_object' s.files } rest

/-- `commit()`.  `commit_time` is the sample taken after all exclusive
locks are held; `now` stands for the remaining `datetime.now()` samples
(end and rollback times), whose values the claims do not constrain. -/
def commit (s0 : Engine) (commit_time now : Nat) : Except EngineError Unit × Engine :=
  match validateTxnIsActive s0 now with
  | (.error e, s) => (.error e, s)
  | (_, s) =>
    if s.modified_files = [] then
      match endTransaction s .COMMITTED now with
      | none => (.error .KeyErr, s)
      | some s' => (.ok (), s')
    else
      let sorted_ids :=
        (s.modified_files.map Prod.fst).insertionSort fun u v : String => u ≤ v
      match acquireLoop s.txn_id sorted_ids [] s.locks with
      | (false, acquired, locks') =>
        (.error .LockConflict, { s with locks := releaseAll s.txn_id acquired locks' })
      | (true, acquired, locks') =>
        let s1 := { s with locks := locks' }
        match commitLoop commit_time now s1 s1.modified_files [] with
        | (.ok _, s2, _) =>
          match endTransaction s2 .COMMITTED now with
          | none => (.error .KeyErr,
              { s2 with locks := releaseAll s2.txn_id acquired s2.locks })
          | some s3 => (.ok (),
              { s3 with locks := releaseAll s3.txn_id acquired s3.locks })
        | (.error .CommitFailed, s2, logs) =>
          match rollbackLoop s2.start_time commit_time now s2 logs with
          | some s3 =>
            match endTransaction s3 .ROLLED_BACK now with
            | none => (.error .KeyErr,
                { s3 with locks := releaseAll s3.txn_id acquired s3.locks })
            | some s4 => (.error .CommitFailed,
                { s4 with locks := releaseAll s4.txn_id acquired s4.locks })
          | none =>
            match endTransaction s2 .ROLLBACK_FAILED now with
            | none => (.error .KeyErr,
                { s2 with locks := releaseAll s2.txn_id acquired s2.locks })
            | some s3 => (.error .Critical,
                { s3 with locks := releaseAll s3.txn_id acquired s3.locks })
        | (.error e, s2, _) =>
          (.error e, { s2 with locks := releaseAll s2.txn_id acquired s2.locks })

/-- `abort()`. -/
def abort (s0 : Engine) (now : Nat) : Except EngineError Unit × Engine :=
  match validateTxnIsActive s0 now with
  | (.error e, s) => (.error e, s)
  | (_, s) =>
    match endTransaction s .ABORTED now with
    | none => (.error .KeyErr, s)
    | some s' => (.ok (), s')

/-! ### Specification predicates -/

/-- Validity of a candidate longest match for `a[alo:ahi]` / `b[blo:bhi]`:
in range, and the matched segments agree character by character. -/
def MOK (a b : Str) (alo ahi blo bhi : Nat) (m : SMatch) : Prop :=
  alo ≤ m.a ∧ blo ≤ m.b ∧ m.a + m.size ≤ ahi ∧ m.b + m.size ≤ bhi ∧
    ∀ d < m.size, a[m.a + d]? = b[m.b + d]?

/-- Same shape for the `(besti, bestj, bestsize)` triples threaded through
the extension loops. -/
def TOK (a b : Str) (alo ahi blo bhi : Nat) (t : Nat × Nat × Nat) : Prop :=
  alo ≤ t.1 ∧ blo ≤ t.2.1 ∧ t.1 + t.2.2 ≤ ahi ∧ t.2.1 + t.2.2 ≤ bhi ∧
    ∀ d < t.2.2, a[t.1 + d]? = b[t.2.1 + d]?

/-- Meaning of a `j2len` row about to be consumed at row `i`: a positive
entry `m j` records a match of that length ending at `(i - 1, j)`. -/
def J2Prev (a b : Str) (alo blo : Nat) (i : Nat) (m : Nat → Nat) : Prop :=
  ∀ j, 0 < m j → m j ≤ i - alo ∧ blo + m j ≤ j + 1 ∧
    ∀ d < m j, a[i - 1 - d]? = b[j - d]?

/-- A monotone run of character-matching blocks between cursor `(i, j)`
and upper bounds `(i2, j2)` (positive sizes; used for the raw
divide-and-conquer blocks and for the merged blocks). -/
inductive Seg (a b : Str) : Nat → Nat → List SMatch → Nat → Nat → Prop where
  | nil {i j i2 j2} : i ≤ i2 → j ≤ j2 → Seg a b i j [] i2 j2
  | cons {i j i2 j2 m rest} : i ≤ m.a → j ≤ m.b → 0 < m.size →
      (∀ d < m.size, a[m.a + d]? = b[m.b + d]?) →
      Seg a b (m.a + m.size) (m.b + m.size) rest i2 j2 →
      Seg a b i j (m :: rest) i2 j2

/-- A block list (sizes may be zero, e.g. the sentinel) that carries the
cursor all the way to `(len a, len b)` — the shape consumed by
`get_opcodes`. -/
inductive Cover (a b : Str) : Nat → Nat → List SMatch → Prop where
  | nil {i j} : i = a.length → j = b.length → Cover a b i j []
  | cons {i j m rest} : i ≤ m.a → j ≤ m.b →
      m.a + m.size ≤ a.length → m.b + m.size ≤ b.length →
      (∀ d < m.size, a[m.a + d]? = b[m.b + d]?) →
      Cover a b (m.a + m.size) (m.b + m.size) rest →
      Cover a b i j (m :: rest)

/-- Insertion of a version after every entry with a less-or-equal
timestamp: the effect of Python's stable sort on an appended element. -/
def insertTail (v : FileVersion) : List FileVersion → List FileVersion
  | [] => [v]
  | e :: rest =>
    if e.timestamp ≤ v.timestamp then e :: insertTail v rest else v :: e :: rest

/-- The timestamp order used by `read_version_at_timestamp`. -/
abbrev tsLE : FileVersion → FileVersion → Prop :=
  fun u w => u.timestamp ≤ w.timestamp

/-- Application of a batch whose listed order is ascending by `start`,
taken from the back (i.e. in descending-`start` order). -/
def applyRev (content : Str) (operations : List DiffOp) : Str :=
  operations.foldr (fun op s => applyOne s op) content

/-- The state produced by `_validate_txn_is_active` on an inactive
transaction: FAILED recorded over the previous status, buffer cleared. -/
def failedState (s : Engine) (td : TransactionData) (now : Nat) : Engine :=
  { s with
    is_active := false
    registry :=
      alSet s.txn_id ⟨td.start_time, some now, TransactionStatus.FAILED⟩ s.registry
    modified_files := [] }

/-- Well-formedness of a lock table: keys are distinct, every entry has
at least one holder, holders are distinct, and an EXCLUSIVE entry has
exactly one holder. -/
def LockTableWF (locks : LockTable) : Prop :=
  (locks.map Prod.fst).Nodup ∧
  ∀ fid L, alGet fid locks = some L →
    L.txn_ids ≠ [] ∧ L.txn_ids.Nodup ∧
      (L.lock_type = LockType.EXCLUSIVE → L.txn_ids.length = 1)

/-! ## Correctness of the diff codec (claim C1 infrastructure) -/

theorem charEq_eq {a b : Str} {i j : Nat} (h : charEq a i b j = true) :
    a[i]? = b[j]? ∧ (a[i]?).isSome := by
  unfold charEq at h
  cases ha : a[i]? with
  | none => rw [ha] at h; simp at h
  | some x =>
    cases hb : b[j]? with
    | none => rw [ha, hb] at h; simp at h
    | some y =>
      rw [ha, hb] at h
      simp only [beq_iff_eq] at h
      rw [h]
      exact ⟨rfl, rfl⟩

theorem mok_def {a b : Str} {alo ahi blo bhi x y z : Nat} :
    MOK a b alo ahi blo bhi ⟨x, y, z⟩ ↔
      alo ≤ x ∧ blo ≤ y ∧ x + z ≤ ahi ∧ y + z ≤ bhi ∧
        ∀ d < z, a[x + d]? = b[y + d]? :=
  Iff.rfl

theorem tok_def {a b : Str} {alo ahi blo bhi x y z : Nat} :
    TOK a b alo ahi blo bhi (x, y, z) ↔
      alo ≤ x ∧ blo ≤ y ∧ x + z ≤ ahi ∧ y + z ≤ bhi ∧
        ∀ d < z, a[x + d]? = b[y + d]? :=
  Iff.rfl

theorem b2j_mem {b : Str} {c : Char} {j : Nat} (h : j ∈ b2j b c) : b[j]? = some c := by
  unfold b2j at h
  simp only at h
  split at h
  · simp at h
  · unfold indicesOf at h
    exact of_decide_eq_true (List.mem_filter.mp h).2

theorem extendLower_tok {a b : Str} {alo ahi blo bhi : Nat} (junkFlag : Bool) :
    ∀ besti bestj bestsize, TOK a b alo ahi blo bhi (besti, bestj, bestsize) →
      TOK a b alo ahi blo bhi (extendLower a b alo blo junkFlag besti bestj bestsize) := by
  intro besti
  induction besti with
  | zero =>
    intro bestj bestsize h
    cases bestj <;> simpa [extendLower] using h
  | succ bi ih =>
    intro bestj bestsize h
    cases bestj with
    | zero => simpa [extendLower] using h
    | succ bj =>
      rw [extendLower]
      split
      case isTrue hg =>
        obtain ⟨hg1, hg2, _, hg4⟩ := hg
        rw [tok_def] at h
        obtain ⟨ha1, ha2, ha3, ha4, hm⟩ := h
        refine ih bj (bestsize + 1) (tok_def.mpr ⟨hg1, hg2, by omega, by omega, ?_⟩)
        intro d hd
        cases d with
        | zero => simpa using (charEq_eq hg4).1
        | succ d' =>
          have e1 : bi + (d' + 1) = (bi + 1) + d' := by omega
          have e2 : bj + (d' + 1) = (bj + 1) + d' := by omega
          rw [e1, e2]
          exact hm d' (by omega)
      case isFalse => exact h

theorem extendUpper_tok {a b : Str} {alo ahi blo bhi : Nat} (junkFlag : Bool)
    (besti bestj : Nat) :
    ∀ fuel bestsize, TOK a b alo ahi blo bhi (besti, bestj, bestsize) →
      TOK a b alo ahi blo bhi
        (besti, bestj, extendUpper a b ahi bhi junkFlag besti bestj fuel bestsize) := by
  intro fuel
  induction fuel with
  | zero => intro bestsize h; simpa [extendUpper] using h
  | succ f ih =>
    intro bestsize h
    rw [extendUpper]
    split
    case isTrue hg =>
      obtain ⟨hg1, hg2, _, hg4⟩ := hg
      rw [tok_def] at h
      obtain ⟨ha1, ha2, ha3, ha4, hm⟩ := h
      refine ih (bestsize + 1) (tok_def.mpr ⟨ha1, ha2, by omega, by omega, ?_⟩)
      intro d hd
      rcases Nat.lt_or_ge d bestsize with hlt | hge
      · exact hm d hlt
      · have hde : d = bestsize := by omega
        subst hde
        exact (charEq_eq hg4).1
    case isFalse => exact h

theorem flmInner_ok {a b : Str} {alo ahi blo bhi i : Nat} {c : Char}
    (hai : a[i]? = some c) (hialo : alo ≤ i) (hiahi : i < ahi)
    {old : Nat → Nat} (hold : J2Prev a b alo blo i old) :
    ∀ (js : List Nat) (acc : Nat → Nat) (best : SMatch),
      (∀ j ∈ js, b[j]? = some c) →
      J2Prev a b alo blo (i + 1) acc →
      MOK a b alo ahi blo bhi best →
      J2Prev a b alo blo (i + 1) (flmInner blo bhi i old js acc best).1 ∧
        MOK a b alo ahi blo bhi (flmInner blo bhi i old js acc best).2 := by
  intro js
  induction js with
  | nil =>
    intro acc best _ hacc hbest
    exact ⟨hacc, hbest⟩
  | cons j js ih =>
    intro acc best hjs hacc hbest
    rw [flmInner]
    split
    · exact ih acc best (fun j' hj' => hjs j' (List.mem_cons_of_mem _ hj')) hacc hbest
    · split
      · exact ⟨hacc, hbest⟩
      · rename_i hblo hbhi
        have hjb : b[j]? = some c := hjs j (List.mem_cons_self _ _)
        have hbloj : blo ≤ j := Nat.le_of_not_lt hblo
        have hjbhi : j < bhi := Nat.lt_of_not_le hbhi
        dsimp only
        set t := if j = 0 then 0 else old (j - 1) with ht
        have htj : 0 < t → t ≤ i - alo ∧ blo + t ≤ j ∧
            ∀ d < t, a[i - 1 - d]? = b[j - 1 - d]? := by
          intro hpos
          have hj0 : ¬ j = 0 := by
            intro h0
            rw [h0] at ht
            simp at ht
            omega
          rw [ht, if_neg hj0] at hpos ⊢
          obtain ⟨h1, h2, h3⟩ := hold (j - 1) hpos
          refine ⟨h1, by omega, ?_⟩
          intro d hd
          have e2 : j - 1 - d = (j - 1) - d := by omega
          rw [e2]
          exact h3 d hd
        have hkle : t + 1 ≤ i + 1 - alo ∧ blo + (t + 1) ≤ j + 1 := by
          rcases Nat.eq_zero_or_pos t with hz | hp
          · omega
          · have := htj hp; omega
        have hkmatch : ∀ d < t + 1, a[i - d]? = b[j - d]? := by
          intro d hd
          cases d with
          | zero => simpa using hai.trans hjb.symm
          | succ d' =>
            have hp : 0 < t := by omega
            obtain ⟨_, _, h3⟩ := htj hp
            have e1 : i - (d' + 1) = i - 1 - d' := by omega
            have e2 : j - (d' + 1) = j - 1 - d' := by omega
            rw [e1, e2]
            exact h3 d' (by omega)
        apply ih
        · exact fun j' hj' => hjs j' (List.mem_cons_of_mem _ hj')
        · intro j' hpos
          dsimp only at hpos ⊢
          by_cases hjj : j' = j
          · subst hjj
            rw [if_pos rfl] at hpos ⊢
            refine ⟨by omega, by omega, ?_⟩
            intro d hd
            have e : i + 1 - 1 - d = i - d := by omega
            rw [e]
            exact hkmatch d hd
          · rw [if_neg hjj] at hpos ⊢
            exact hacc j' hpos
        · by_cases hbk : best.size < t + 1
          · rw [if_pos hbk, mok_def]
            refine ⟨by omega, by omega, by omega, by omega, ?_⟩
            intro d hd
            have e1 : i + 1 - (t + 1) + d = i - (t - d) := by omega
            have e2 : j + 1 - (t + 1) + d = j - (t - d) := by omega
            rw [e1, e2]
            exact hkmatch (t - d) (by omega)
          · rw [if_neg hbk]
            exact hbest

theorem flmRange_ok {a b : Str} {alo ahi blo bhi : Nat} :
    ∀ (n i0 : Nat) (st : (Nat → Nat) × SMatch),
      alo ≤ i0 → i0 + n ≤ ahi →
      J2Prev a b alo blo i0 st.1 →
      MOK a b alo ahi blo bhi st.2 →
      J2Prev a b alo blo (i0 + n) ((List.range' i0 n).foldl (flmStep a b blo bhi) st).1 ∧
        MOK a b alo ahi blo bhi
          ((List.range' i0 n).foldl (flmStep a b blo bhi) st).2 := by
  intro n
  induction n with
  | zero => intro i0 st _ _ h1 h2; simpa using ⟨h1, h2⟩
  | succ n ih =>
    intro i0 st h0 hn h1 h2
    rw [List.range'_succ, List.foldl_cons]
    have hstep : J2Prev a b alo blo (i0 + 1) (flmStep a b blo bhi st i0).1 ∧
        MOK a b alo ahi blo bhi (flmStep a b blo bhi st i0).2 := by
      unfold flmStep
      cases hc : a[i0]? with
      | none =>
        dsimp only
        exact ⟨fun j hj => absurd hj (by simp [flmInner]), by simpa [flmInner] using h2⟩
      | some c =>
        dsimp only
        exact flmInner_ok hc h0 (by omega) h1 (b2j b c) _ _
          (fun j hj => b2j_mem hj) (fun j hj => absurd hj (by simp)) h2
    have hres := ih (i0 + 1) (flmStep a b blo bhi st i0) (by omega) (by omega)
      hstep.1 hstep.2
    have e : i0 + (n + 1) = (i0 + 1) + n := by omega
    rw [e]
    exact hres

theorem mok_tok {a b : Str} {alo ahi blo bhi : Nat} {m : SMatch}
    (h : MOK a b alo ahi blo bhi m) : TOK a b alo ahi blo bhi (m.a, m.b, m.size) := h

theorem find_longest_match_mok {a b : Str} {alo ahi blo bhi : Nat}
    (h1 : alo ≤ ahi) (h2 : blo ≤ bhi) :
    MOK a b alo ahi blo bhi (find_longest_match a b alo ahi blo bhi) := by
  have hbase : MOK a b alo ahi blo bhi (flmLoop a b alo ahi blo bhi) := by
    unfold flmLoop
    refine (flmRange_ok (ahi - alo) alo (fun _ => 0, ⟨alo, blo, 0⟩) le_rfl (by omega)
      (fun j hj => absurd hj (by simp)) ?_).2
    exact ⟨le_rfl, le_rfl, by simpa using h1, by simpa using h2,
      fun d hd => absurd hd (by simp)⟩
  unfold find_longest_match
  dsimp only
  rcases hE1 : extendLower a b alo blo false (flmLoop a b alo ahi blo bhi).a
      (flmLoop a b alo ahi blo bhi).b (flmLoop a b alo ahi blo bhi).size
    with ⟨i1, j1, s1⟩
  have t1 := extendLower_tok false _ _ _ (mok_tok hbase)
  rw [hE1] at t1
  dsimp only
  have t2 := extendUpper_tok false i1 j1 ahi s1 t1
  rcases hE3 : extendLower a b alo blo true i1 j1
      (extendUpper a b ahi bhi false i1 j1 ahi s1) with ⟨i3, j3, s3⟩
  have t3 := extendLower_tok true i1 j1 _ t2
  rw [hE3] at t3
  dsimp only
  exact extendUpper_tok true i3 j3 ahi s3 t3

theorem Seg.le {a b : Str} {i j i2 j2 : Nat} {L : List SMatch}
    (h : Seg a b i j L i2 j2) : i ≤ i2 ∧ j ≤ j2 := by
  induction h with
  | nil h1 h2 => exact ⟨h1, h2⟩
  | cons h1 h2 _ _ _ ih =>
    exact ⟨le_trans (le_trans h1 (Nat.le_add_right _ _)) ih.1,
      le_trans (le_trans h2 (Nat.le_add_right _ _)) ih.2⟩

theorem Seg.mono {a b : Str} {i j i' j' i2 j2 : Nat} {L : List SMatch}
    (hi : i' ≤ i) (hj : j' ≤ j) (h : Seg a b i j L i2 j2) : Seg a b i' j' L i2 j2 := by
  cases h with
  | nil h1 h2 => exact .nil (le_trans hi h1) (le_trans hj h2)
  | cons h1 h2 h3 h4 h5 => exact .cons (le_trans hi h1) (le_trans hj h2) h3 h4 h5

theorem Seg.append {a b : Str} {i j k l i2 j2 : Nat} {L1 L2 : List SMatch}
    (h1 : Seg a b i j L1 k l) (h2 : Seg a b k l L2 i2 j2) :
    Seg a b i j (L1 ++ L2) i2 j2 := by
  induction h1 with
  | nil hi hj => simpa using h2.mono hi hj
  | cons ha hb hc hd _ ih => exact .cons ha hb hc hd (ih h2)

theorem matchingBlocksRec_seg {a b : Str} :
    ∀ (fuel alo ahi blo bhi : Nat), alo ≤ ahi → blo ≤ bhi →
      Seg a b alo blo (matchingBlocksRec a b fuel alo ahi blo bhi) ahi bhi := by
  intro fuel
  induction fuel with
  | zero => intro alo ahi blo bhi h1 h2; exact .nil h1 h2
  | succ fuel ih =>
    intro alo ahi blo bhi h1 h2
    rw [matchingBlocksRec]
    have hmok := @find_longest_match_mok a b alo ahi blo bhi h1 h2
    obtain ⟨hk1, hk2, hk3, hk4, hk5⟩ := hmok
    split
    · exact .nil h1 h2
    · rename_i hsz
      rw [List.append_assoc]
      refine Seg.append ?_ (Seg.cons le_rfl le_rfl (Nat.pos_of_ne_zero hsz) hk5 ?_)
      · split
        · exact ih alo _ blo _ hk1 hk2
        · exact .nil hk1 hk2
      · split
        · exact ih _ ahi _ bhi (by omega) (by omega)
        · exact .nil hk3 hk4

theorem mergeAdjacent_seg {a b : Str} :
    ∀ (L : List SMatch) (cur : SMatch) (i j i2 j2 : Nat),
      i ≤ cur.a → j ≤ cur.b →
      (∀ d < cur.size, a[cur.a + d]? = b[cur.b + d]?) →
      Seg a b (cur.a + cur.size) (cur.b + cur.size) L i2 j2 →
      Seg a b i j (mergeAdjacent cur L) i2 j2 := by
  intro L
  induction L with
  | nil =>
    intro cur i j i2 j2 hi hj hmatch hseg
    rw [mergeAdjacent]
    cases hseg with
    | nil h1 h2 =>
      split
      · rename_i hsz
        exact .cons hi hj (Nat.pos_of_ne_zero hsz) hmatch (.nil h1 h2)
      · rename_i hsz
        exact .nil (by omega) (by omega)
  | cons m rest ih =>
    intro cur i j i2 j2 hi hj hmatch hseg
    rw [mergeAdjacent]
    cases hseg with
    | cons h1 h2 h3 h4 h5 =>
      split
      · rename_i hadj
        obtain ⟨e1, e2⟩ := hadj
        apply ih ⟨cur.a, cur.b, cur.size + m.size⟩ i j i2 j2 hi hj
        · intro d hd
          dsimp only at hd ⊢
          rcases Nat.lt_or_ge d cur.size with hlt | hge
          · exact hmatch d hlt
          · have e3 : cur.a + d = m.a + (d - cur.size) := by omega
            have e4 : cur.b + d = m.b + (d - cur.size) := by omega
            rw [e3, e4]
            exact h4 _ (by omega)
        · have e3 : (⟨cur.a, cur.b, cur.size + m.size⟩ : SMatch).a +
              (⟨cur.a, cur.b, cur.size + m.size⟩ : SMatch).size = m.a + m.size := by
            dsimp only; omega
          have e4 : (⟨cur.a, cur.b, cur.size + m.size⟩ : SMatch).b +
              (⟨cur.a, cur.b, cur.size + m.size⟩ : SMatch).size = m.b + m.size := by
            dsimp only; omega
          rw [e3, e4]
          exact h5
      · rename_i hnadj
        split
        · rename_i hsz
          exact Seg.append
            (Seg.cons hi hj (Nat.pos_of_ne_zero hsz) hmatch (.nil le_rfl le_rfl))
            (ih m _ _ i2 j2 h1 h2 h4 h5)
        · rename_i hsz
          simpa using ih m i j i2 j2 (by omega) (by omega) h4 h5

theorem mergeAdjacent_sizes :
    ∀ (L : List SMatch) (cur : SMatch), ∀ m ∈ mergeAdjacent cur L, m.size ≠ 0 := by
  intro L
  induction L with
  | nil =>
    intro cur m hm
    rw [mergeAdjacent] at hm
    split at hm
    · rename_i h
      rw [List.mem_singleton] at hm
      rwa [hm]
    · simp at hm
  | cons x rest ih =>
    intro cur m hm
    rw [mergeAdjacent] at hm
    split at hm
    · exact ih _ m hm
    · rcases List.mem_append.mp hm with hl | hr
      · split at hl
        · rename_i h
          rw [List.mem_singleton] at hl
          rwa [hl]
        · simp at hl
      · exact ih _ m hr

theorem seg_cover {a b : Str} {i j la lb : Nat} {L : List SMatch}
    (hla : la = a.length) (hlb : lb = b.length)
    (h : Seg a b i j L la lb) :
    Cover a b i j (L ++ [⟨la, lb, 0⟩]) := by
  induction h with
  | nil h1 h2 =>
    exact .cons h1 h2 (by simp [hla]) (by simp [hlb])
      (fun d hd => absurd hd (by simp)) (.nil (by simp [hla]) (by simp [hlb]))
  | cons h1 h2 h3 h4 h5 ih =>
    exact .cons h1 h2 (hla ▸ h5.le.1) (hlb ▸ h5.le.2) h4 (ih hla hlb)

theorem drop_take_drop {α : Type} (l : List α) {x y : Nat} (h : x ≤ y) :
    (l.take y).drop x ++ l.drop y = l.drop x := by
  conv_rhs => rw [← List.take_append_drop y l, List.drop_append_eq_append_drop]
  rcases Nat.le_total y l.length with hy | hy
  · have e : x - (l.take y).length = 0 := by rw [List.length_take]; omega
    rw [e, List.drop_zero]
  · have h1 : l.drop y = [] := List.drop_eq_nil_of_le hy
    rw [h1]
    simp

theorem take_eq_take_append {α : Type} (l : List α) {m n : Nat} (h : m ≤ n) :
    l.take n = l.take m ++ (l.take n).drop m := by
  conv_lhs => rw [← List.take_append_drop m (l.take n)]
  rw [List.take_take, Nat.min_eq_left h]

theorem seg_eq_of_match {a b : Str} {A B S : Nat}
    (_hA : A + S ≤ a.length) (_hB : B + S ≤ b.length)
    (hm : ∀ d < S, a[A + d]? = b[B + d]?) :
    (a.take (A + S)).drop A = (b.take (B + S)).drop B := by
  apply List.ext_getElem?
  intro n
  rw [List.getElem?_drop, List.getElem?_drop, List.getElem?_take, List.getElem?_take]
  by_cases hn : n < S
  · rw [if_pos (by omega), if_pos (by omega)]
    exact hm n hn
  · rw [if_neg (by omega), if_neg (by omega)]

theorem applyRev_append (c : Str) (l1 l2 : List DiffOp) :
    applyRev c (l1 ++ l2) = List.foldr (fun op s => applyOne s op) (applyRev c l2) l1 := by
  unfold applyRev
  exact List.foldr_append _ _ _ _

theorem cover_applyRev {a b : Str} :
    ∀ {L : List SMatch} {i j : Nat}, Cover a b i j L →
      applyRev a (opcodeOps b i j L) = a.take i ++ b.drop j := by
  intro L
  induction L with
  | nil =>
    intro i j h
    cases h with
    | nil h1 h2 =>
      subst h1
      subst h2
      simp [applyRev, opcodeOps]
  | cons m rest ih =>
    intro i j h
    cases h with
    | cons h1 h2 h3 h4 h5 h6 =>
      have hR := ih h6
      have hlen1 : (a.take (m.a + m.size)).length = m.a + m.size := by
        rw [List.length_take]; omega
      have hdropA : (a.take (m.a + m.size) ++ b.drop (m.b + m.size)).drop m.a
          = b.drop m.b := by
        rw [List.drop_append_eq_append_drop, seg_eq_of_match h3 h4 h5, hlen1]
        have e : m.a - (m.a + m.size) = 0 := by omega
        rw [e, List.drop_zero]
        exact drop_take_drop b (Nat.le_add_right _ _)
      have htakei : ∀ i' ≤ m.a,
          (a.take (m.a + m.size) ++ b.drop (m.b + m.size)).take i' = a.take i' := by
        intro i' hi
        rw [List.take_append_eq_append_take, List.take_take,
          Nat.min_eq_left (by omega), hlen1]
        have e : i' - (m.a + m.size) = 0 := by omega
        rw [e, List.take_zero, List.append_nil]
      have hsplit : a.take (m.a + m.size) ++ b.drop (m.b + m.size)
          = a.take m.a ++ b.drop m.b := by
        conv_lhs => rw [take_eq_take_append a (Nat.le_add_right m.a m.size)]
        rw [seg_eq_of_match h3 h4 h5, List.append_assoc,
          drop_take_drop b (Nat.le_add_right _ _)]
      rw [opcodeOps, applyRev_append, hR]
      split
      · rename_i hc
        simp only [List.foldr_cons, List.foldr_nil, applyOne, slice]
        rw [htakei i (le_of_lt hc.1), hdropA]
        rw [List.append_assoc, drop_take_drop b (le_of_lt hc.2)]
      · split
        · rename_i hc1 hc2
          have hj : j = m.b := by omega
          subst hj
          simp only [List.foldr_cons, List.foldr_nil, applyOne]
          rw [htakei i (le_of_lt hc2), hdropA]
        · split
          · rename_i hc1 hc2 hc3
            have hi : i = m.a := by omega
            subst hi
            simp only [List.foldr_cons, List.foldr_nil, applyOne, slice]
            rw [htakei m.a le_rfl, hdropA]
            rw [List.append_assoc, drop_take_drop b (le_of_lt hc3)]
          · rename_i hc1 hc2 hc3
            have hi : i = m.a := by omega
            have hj : j = m.b := by omega
            subst hi
            subst hj
            simpa using hsplit

theorem opcodeOps_start_ge {a b : Str} :
    ∀ {L : List SMatch} {i j : Nat}, Cover a b i j L →
      ∀ op ∈ opcodeOps b i j L, i ≤ op.start := by
  intro L
  induction L with
  | nil =>
    intro i j _ op hop
    simp [opcodeOps] at hop
  | cons m rest ih =>
    intro i j h op hop
    cases h with
    | cons h1 h2 h3 h4 h5 h6 =>
      rw [opcodeOps] at hop
      rcases List.mem_append.mp hop with hl | hr
      · split at hl
        · rw [List.mem_singleton] at hl
          rw [hl]
          exact le_rfl
        · split at hl
          · rw [List.mem_singleton] at hl
            rw [hl]
            exact le_rfl
          · split at hl
            · rw [List.mem_singleton] at hl
              rw [hl]
              exact le_rfl
            · simp at hl
      · exact le_trans (le_trans h1 (Nat.le_add_right _ _)) (ih h6 op hr)

theorem opcodeOps_pairwise {a b : Str} :
    ∀ {L : List SMatch} {i j : Nat}, Cover a b i j L →
      (∀ m ∈ L.dropLast, 0 < m.size) →
      List.Pairwise (fun u v : DiffOp => u.start < v.start) (opcodeOps b i j L) := by
  intro L
  induction L with
  | nil =>
    intro i j _ _
    simp [opcodeOps]
  | cons m rest ih =>
    intro i j h hsz
    cases h with
    | cons h1 h2 h3 h4 h5 h6 =>
      rw [opcodeOps, List.pairwise_append]
      refine ⟨?_, ?_, ?_⟩
      · split
        · simp
        · split
          · simp
          · split
            · simp
            · simp
      · apply ih h6
        intro m' hm'
        cases rest with
        | nil => simp at hm'
        | cons x xs =>
          exact hsz m' (by rw [List.dropLast_cons₂]; exact List.mem_cons_of_mem _ hm')
      · intro o1 ho1 o2 ho2
        cases rest with
        | nil => simp [opcodeOps] at ho2
        | cons x xs =>
          have hms : 0 < m.size := hsz m (by rw [List.dropLast_cons₂]; exact List.mem_cons_self _ _)
          have ho2' : m.a + m.size ≤ o2.start := opcodeOps_start_ge h6 o2 ho2
          have ho1' : o1.start = i := by
            split at ho1
            · rw [List.mem_singleton] at ho1
              rw [ho1]
              rfl
            · split at ho1
              · rw [List.mem_singleton] at ho1
                rw [ho1]
                rfl
              · split at ho1
                · rw [List.mem_singleton] at ho1
                  rw [ho1]
                  rfl
                · simp at ho1
          rw [ho1']
          omega

theorem opcodeOps_valid {a b : Str} :
    ∀ {L : List SMatch} {i j : Nat}, Cover a b i j L →
      ∀ op ∈ opcodeOps b i j L,
        op.start ≤ a.length ∧ op.start ≤ op.stop ∧ op.stop ≤ a.length := by
  intro L
  induction L with
  | nil =>
    intro i j _ op hop
    simp [opcodeOps] at hop
  | cons m rest ih =>
    intro i j h op hop
    cases h with
    | cons h1 h2 h3 h4 h5 h6 =>
      have hma : m.a ≤ a.length := le_trans (Nat.le_add_right _ _) h3
      rw [opcodeOps] at hop
      rcases List.mem_append.mp hop with hl | hr
      · split at hl
        · rw [List.mem_singleton] at hl
          rw [hl]
          exact ⟨by dsimp [DiffOp.start]; omega, by dsimp [DiffOp.start, DiffOp.stop]; omega,
            by dsimp [DiffOp.stop]; omega⟩
        · split at hl
          · rw [List.mem_singleton] at hl
            rw [hl]
            exact ⟨by dsimp [DiffOp.start]; omega, by dsimp [DiffOp.start, DiffOp.stop]; omega,
              by dsimp [DiffOp.stop]; omega⟩
          · split at hl
            · rw [List.mem_singleton] at hl
              rw [hl]
              exact ⟨by dsimp [DiffOp.start]; omega, by dsimp [DiffOp.start, DiffOp.stop]; omega,
                by dsimp [DiffOp.stop]; omega⟩
            · simp at hl
      · exact ih h6 op hr

theorem sorted_desc_unique :
    ∀ (l1 l2 : List DiffOp), l1.Perm l2 →
      List.Pairwise (fun u v : DiffOp => v.start < u.start) l1 →
      List.Pairwise (fun u v : DiffOp => v.start ≤ u.start) l2 →
      l1 = l2 := by
  intro l1
  induction l1 with
  | nil =>
    intro l2 hp _ _
    exact (List.perm_nil.mp hp.symm).symm
  | cons x t1 ih =>
    intro l2 hp hs1 hs2
    cases l2 with
    | nil => simp [List.perm_nil] at hp
    | cons y t2 =>
      have hxy : x = y := by
        have hx2 : x ∈ y :: t2 := hp.mem_iff.mp (List.mem_cons_self _ _)
        have hy1 : y ∈ x :: t1 := hp.mem_iff.mpr (List.mem_cons_self _ _)
        rcases List.mem_cons.mp hx2 with he | hx2'
        · exact he
        rcases List.mem_cons.mp hy1 with he | hy1'
        · exact he.symm
        have hlt : y.start < x.start := (List.pairwise_cons.mp hs1).1 y hy1'
        have hle : x.start ≤ y.start := (List.pairwise_cons.mp hs2).1 x hx2'
        omega
      subst hxy
      rw [ih t2 hp.cons_inv (List.pairwise_cons.mp hs1).2 (List.pairwise_cons.mp hs2).2]

theorem get_matching_blocks_cover (a b : Str) :
    Cover a b 0 0 (get_matching_blocks a b) := by
  unfold get_matching_blocks
  apply seg_cover rfl rfl
  apply mergeAdjacent_seg _ ⟨0, 0, 0⟩ 0 0 _ _ le_rfl le_rfl
    (fun d hd => absurd hd (by simp))
  simpa using matchingBlocksRec_seg (a := a) (b := b) _ 0 a.length 0 b.length
    (Nat.zero_le _) (Nat.zero_le _)

theorem get_matching_blocks_sizes (a b : Str) :
    ∀ m ∈ (get_matching_blocks a b).dropLast, 0 < m.size := by
  unfold get_matching_blocks
  rw [List.dropLast_concat]
  intro m hm
  exact Nat.pos_of_ne_zero (mergeAdjacent_sizes _ _ m hm)

/-- C1: for every pair of strings `a` and `b`, applying the batch produced
by `get_diff_operations(a, b)` to `a` yields exactly `b`
(`apply(a, diff(a, b)) = b`), and when `a = b` the produced batch is
empty. -/
theorem diff_roundtrip (a b : Str) :
    apply_diff_operations a (get_diff_operations a b) = some b ∧
      get_diff_operations a a = [] := by
  constructor
  · by_cases hab : a = b
    · subst hab
      simp [get_diff_operations, apply_diff_operations, validate_operations,
        sortByStartDesc]
    · rw [get_diff_operations, if_neg hab]
      have hcover := get_matching_blocks_cover a b
      have hvalid : validate_operations a (opcodeOps b 0 0 (get_matching_blocks a b))
          = true := by
        rw [validate_operations, List.all_eq_true]
        intro op hop
        obtain ⟨v1, v2, v3⟩ := opcodeOps_valid hcover op hop
        simp [v1, v2, v3]
      have hpw : List.Pairwise (fun u v : DiffOp => u.start < v.start)
          (opcodeOps b 0 0 (get_matching_blocks a b)) :=
        opcodeOps_pairwise hcover (get_matching_blocks_sizes a b)
      have hsorted : sortByStartDesc (opcodeOps b 0 0 (get_matching_blocks a b))
          = (opcodeOps b 0 0 (get_matching_blocks a b)).reverse := by
        apply Eq.symm
        apply sorted_desc_unique
        · exact (List.reverse_perm _).trans (List.perm_insertionSort _ _).symm
        · exact List.pairwise_reverse.mpr hpw
        · haveI : IsTotal DiffOp (fun u v => v.start ≤ u.start) :=
            ⟨fun u v => Nat.le_total v.start u.start⟩
          haveI : IsTrans DiffOp (fun u v => v.start ≤ u.start) :=
            ⟨fun _ _ _ h1 h2 => le_trans h2 h1⟩
          exact List.sorted_insertionSort _ _
      rw [apply_diff_operations, if_pos hvalid, hsorted, List.foldl_reverse]
      have he : List.foldr (fun x y => applyOne y x) a
          (opcodeOps b 0 0 (get_matching_blocks a b))
          = applyRev a (opcodeOps b 0 0 (get_matching_blocks a b)) := rfl
      rw [he, cover_applyRev hcover]
      simp
  · rw [get_diff_operations, if_pos rfl]

/-! ## Version-log machinery (claims C2, C3, C4) -/

theorem sortedVersions_cons (x : FileVersion) (l : List FileVersion) :
    sortedVersions (x :: l) = List.orderedInsert tsLE x (sortedVersions l) := rfl

theorem orderedInsert_insertTail (x v : FileVersion) :
    ∀ S : List FileVersion,
      List.orderedInsert tsLE x (insertTail v S)
        = insertTail v (List.orderedInsert tsLE x S) := by
  intro S
  induction S with
  | nil =>
    by_cases h : x.timestamp ≤ v.timestamp <;>
      simp [insertTail, List.orderedInsert, tsLE, h]
  | cons e S' ih =>
    by_cases hev : e.timestamp ≤ v.timestamp
    · by_cases hxe : x.timestamp ≤ e.timestamp
      · have hxv : x.timestamp ≤ v.timestamp := le_trans hxe hev
        simp [insertTail, List.orderedInsert, tsLE, hev, hxe, hxv]
      · simp [insertTail, List.orderedInsert, tsLE, hev, hxe, ih]
    · by_cases hxe : x.timestamp ≤ e.timestamp
      · by_cases hxv : x.timestamp ≤ v.timestamp
        · simp [insertTail, List.orderedInsert, tsLE, hev, hxe, hxv]
        · simp [insertTail, List.orderedInsert, tsLE, hev, hxe, hxv]
      · have hxv : ¬ x.timestamp ≤ v.timestamp := by omega
        simp [insertTail, List.orderedInsert, tsLE, hev, hxe, hxv, ih]

theorem sortedVersions_append (l : List FileVersion) (v : FileVersion) :
    sortedVersions (l ++ [v]) = insertTail v (sortedVersions l) := by
  induction l with
  | nil => simp [sortedVersions, insertTail]
  | cons x l ih =>
    rw [List.cons_append, sortedVersions_cons, ih, sortedVersions_cons,
      orderedInsert_insertTail]

theorem applyUpTo_insertTail_gt {t : Nat} {v : FileVersion} (hv : t < v.timestamp) :
    ∀ (S : List FileVersion) (c : Str),
      applyVersionsUpTo t c (insertTail v S) = applyVersionsUpTo t c S := by
  intro S
  induction S with
  | nil => intro c; simp [insertTail, applyVersionsUpTo, hv]
  | cons e S' ih =>
    intro c
    rw [insertTail]
    split
    · rw [applyVersionsUpTo, applyVersionsUpTo]
      split
      · rfl
      · cases happ : apply_diff_operations c e.diff_operations
        · simp [happ]
        · simp only [happ]
          exact ih _
    · rename_i he
      rw [applyVersionsUpTo, if_pos hv, applyVersionsUpTo, if_pos (by omega)]

theorem applyUpTo_insertTail_eq {t : Nat} {v : FileVersion} (hv : v.timestamp = t) :
    ∀ (S : List FileVersion) (c : Str),
      applyVersionsUpTo t c (insertTail v S)
        = (applyVersionsUpTo t c S).bind
            (fun c' => apply_diff_operations c' v.diff_operations) := by
  intro S
  induction S with
  | nil =>
    intro c
    have hnlt : ¬ t < v.timestamp := by omega
    cases happ : apply_diff_operations c v.diff_operations <;>
      simp [insertTail, applyVersionsUpTo, hnlt, happ]
  | cons e S' ih =>
    intro c
    rw [insertTail]
    split
    · rename_i he
      have hne : ¬ t < e.timestamp := by omega
      simp only [applyVersionsUpTo, if_neg hne]
      cases happ : apply_diff_operations c e.diff_operations
      · simp [happ]
      · simp only [happ]
        exact ih _
    · rename_i he
      have h1 : ¬ t < v.timestamp := by omega
      have h2 : t < e.timestamp := by omega
      simp only [applyVersionsUpTo, if_neg h1, if_pos h2]
      cases happ : apply_diff_operations c v.diff_operations <;> simp [happ]

theorem applyUpTo_all_le {t1 t2 : Nat} :
    ∀ (S : List FileVersion) (c : Str),
      (∀ v ∈ S, v.timestamp ≤ t1 ∧ v.timestamp ≤ t2) →
      applyVersionsUpTo t1 c S = applyVersionsUpTo t2 c S := by
  intro S
  induction S with
  | nil => intro c _; rfl
  | cons e S' ih =>
    intro c h
    obtain ⟨h1, h2⟩ := h e (List.mem_cons_self _ _)
    rw [applyVersionsUpTo, applyVersionsUpTo, if_neg (by omega), if_neg (by omega)]
    cases happ : apply_diff_operations c e.diff_operations
    · simp [happ]
    · simp only [happ]
      exact ih _ (fun v hv => h v (List.mem_cons_of_mem _ hv))

theorem applyUpTo_takeWhile {t : Nat} :
    ∀ (S : List FileVersion) (c : Str),
      applyVersionsUpTo t c S
        = applyVersionsUpTo t c (S.takeWhile fun v => decide (v.timestamp ≤ t)) := by
  intro S
  induction S with
  | nil => intro c; rfl
  | cons e S' ih =>
    intro c
    by_cases he : t < e.timestamp
    · rw [applyVersionsUpTo, if_pos he, List.takeWhile_cons]
      rw [if_neg (by simpa using (by omega : ¬ e.timestamp ≤ t))]
      rfl
    · rw [applyVersionsUpTo, if_neg he, List.takeWhile_cons,
        if_pos (by simpa using (by omega : e.timestamp ≤ t))]
      rw [applyVersionsUpTo, if_neg he]
      cases happ : apply_diff_operations c e.diff_operations
      · simp [happ]
      · simp only [happ]
        exact ih _

theorem takeWhile_eq_filter_of_sorted {t : Nat} :
    ∀ {S : List FileVersion}, List.Sorted tsLE S →
      (S.takeWhile fun v => decide (v.timestamp ≤ t))
        = S.filter fun v => decide (v.timestamp ≤ t) := by
  intro S
  induction S with
  | nil => intro _; rfl
  | cons e S' ih =>
    intro hs
    by_cases he : e.timestamp ≤ t
    · rw [List.takeWhile_cons, if_pos (by simpa using he),
        List.filter_cons, if_pos (by simpa using he), ih hs.of_cons]
    · rw [List.takeWhile_cons, if_neg (by simpa using he),
        List.filter_cons, if_neg (by simpa using he)]
      symm
      rw [List.filter_eq_nil_iff]
      intro v hv
      have h2 := List.rel_of_sorted_cons hs v hv
      simp only [tsLE] at h2
      simp only [decide_eq_true_eq]
      omega

theorem filter_orderedInsert {t : Nat} (x : FileVersion) :
    ∀ {S : List FileVersion}, List.Sorted tsLE S →
      (List.orderedInsert tsLE x S).filter (fun v => decide (v.timestamp ≤ t))
        = if x.timestamp ≤ t then
            List.orderedInsert tsLE x (S.filter fun v => decide (v.timestamp ≤ t))
          else S.filter fun v => decide (v.timestamp ≤ t) := by
  intro S
  induction S with
  | nil =>
    intro _
    by_cases hx : x.timestamp ≤ t <;> simp [List.orderedInsert, hx]
  | cons e S' ih =>
    intro hs
    have ihS := ih hs.of_cons
    by_cases hxe : x.timestamp ≤ e.timestamp
    · by_cases hx : x.timestamp ≤ t
      · by_cases he : e.timestamp ≤ t
        · simp [List.orderedInsert, tsLE, hxe, hx, he]
        · have hS' : S'.filter (fun v => decide (v.timestamp ≤ t)) = [] := by
            rw [List.filter_eq_nil_iff]
            intro v hv
            have h2 := List.rel_of_sorted_cons hs v hv
            simp only [tsLE] at h2
            simp only [decide_eq_true_eq]
            omega
          simp [List.orderedInsert, tsLE, hxe, hx, he, hS']
      · have he : ¬ e.timestamp ≤ t := by omega
        simp [List.orderedInsert, tsLE, hxe, hx, he]
    · by_cases hx : x.timestamp ≤ t
      · by_cases he : e.timestamp ≤ t
        · simp [List.orderedInsert, tsLE, hxe, hx, he, ihS]
        · omega
      · by_cases he : e.timestamp ≤ t
        · simp [List.orderedInsert, tsLE, hxe, hx, he, ihS]
        · simp [List.orderedInsert, tsLE, hxe, hx, he, ihS]

theorem sortedVersions_sorted (l : List FileVersion) :
    List.Sorted tsLE (sortedVersions l) := by
  haveI : IsTotal FileVersion tsLE := ⟨fun u w => Nat.le_total u.timestamp w.timestamp⟩
  haveI : IsTrans FileVersion tsLE := ⟨fun _ _ _ h1 h2 => le_trans h1 h2⟩
  exact List.sorted_insertionSort _ _

theorem filter_sortedVersions {t : Nat} :
    ∀ (l : List FileVersion),
      (sortedVersions l).filter (fun v => decide (v.timestamp ≤ t))
        = sortedVersions (l.filter fun v => decide (v.timestamp ≤ t)) := by
  intro l
  induction l with
  | nil => rfl
  | cons x l ih =>
    rw [sortedVersions_cons, filter_orderedInsert x (sortedVersions_sorted l), ih,
      List.filter_cons]
    by_cases hx : x.timestamp ≤ t
    · rw [if_pos hx, if_pos (by simpa using hx), sortedVersions_cons]
    · rw [if_neg hx, if_neg (by simpa using hx)]

theorem read_at_filter (f : FileObject) (t : Nat) :
    read_version_at_timestamp f t
      = read_version_at_timestamp
          { f with file_versions := f.file_versions.filter fun v => decide (v.timestamp ≤ t) }
          t := by
  unfold read_version_at_timestamp
  dsimp only
  rw [applyUpTo_takeWhile (S := sortedVersions f.file_versions),
    takeWhile_eq_filter_of_sorted (sortedVersions_sorted _), filter_sortedVersions]

theorem read_at_congr (f : FileObject) {t1 t2 : Nat}
    (h : ∀ v ∈ f.file_versions, (v.timestamp ≤ t1 ↔ v.timestamp ≤ t2)) :
    read_version_at_timestamp f t1 = read_version_at_timestamp f t2 := by
  rw [read_at_filter f t1, read_at_filter f t2]
  have hfe : f.file_versions.filter (fun v => decide (v.timestamp ≤ t1))
      = f.file_versions.filter (fun v => decide (v.timestamp ≤ t2)) := by
    apply List.filter_congr
    intro v hv
    simpa using (h v hv)
  unfold read_version_at_timestamp
  dsimp only
  rw [hfe]
  apply applyUpTo_all_le
  intro v hv
  have hv' : v ∈ f.file_versions.filter (fun v => decide (v.timestamp ≤ t2)) :=
    ((List.perm_insertionSort _ _).mem_iff).mp hv
  have h2 : v.timestamp ≤ t2 := by simpa using (List.mem_filter.mp hv').2
  have h1 : v.timestamp ≤ t1 := (h v (List.mem_filter.mp hv').1).mpr h2
  exact ⟨h1, h2⟩

/-- C4: `read_at(t)` is a function only of the snapshot and the versions
with timestamp ≤ t (applied onto the snapshot in ascending timestamp
order, ties broken by append order); in particular, appending any
version with timestamp > t leaves `read_at(t)` unchanged. -/
theorem read_at_depends_only_on_past (f : FileObject) (t : Nat) :
    read_version_at_timestamp f t
        = read_version_at_timestamp
            { f with file_versions :=
                f.file_versions.filter fun v => decide (v.timestamp ≤ t) } t
      ∧ ∀ v : FileVersion, t < v.timestamp →
          read_version_at_timestamp
              { f with file_versions := f.file_versions ++ [v] } t
            = read_version_at_timestamp f t := by
  constructor
  · exact read_at_filter f t
  · intro v hv
    unfold read_version_at_timestamp
    dsimp only
    rw [sortedVersions_append, applyUpTo_insertTail_gt hv]

theorem read_at_depends_only_on_past_witness :
    read_version_at_timestamp
        ⟨['a'], [⟨[DiffOp.insert 1 ['b']], 3⟩, ⟨[DiffOp.delete 0 1], 2⟩], 0⟩ 1
      = read_version_at_timestamp ⟨['a'], [⟨[DiffOp.insert 1 ['b']], 3⟩], 0⟩ 1 :=
  (read_at_depends_only_on_past ⟨['a'], [⟨[DiffOp.insert 1 ['b']], 3⟩], 0⟩ 1).2
    ⟨[DiffOp.delete 0 1], 2⟩ (by decide)

/-- C2: when no existing version of `F` carries timestamp `t`, a
successful `commit_version_at_timestamp(content, t)` appends
`(t, diff(baseline, content))`, makes `read_at(t)` return `content`,
and leaves `read_at(t')` for every `t' < t` exactly as before. -/
theorem commit_version_correct (f : FileObject) (content baseline : Str) (t : Nat)
    (hfresh : ∀ v ∈ f.file_versions, v.timestamp ≠ t)
    (hread : read_version_at_timestamp f t = some baseline) :
    ∃ f', commit_version_at_timestamp f content t = some f' ∧
      f'.file_versions
        = f.file_versions ++ [⟨get_diff_operations baseline content, t⟩] ∧
      read_version_at_timestamp f' t = some content ∧
      ∀ t' < t, read_version_at_timestamp f' t' = read_version_at_timestamp f t' := by
  have hc : commit_version_at_timestamp f content t
      = some { f with file_versions :=
          f.file_versions ++ [⟨get_diff_operations baseline content, t⟩] } := by
    unfold commit_version_at_timestamp
    rw [hread]
  refine ⟨_, hc, rfl, ?_, ?_⟩
  · unfold read_version_at_timestamp
    dsimp only
    rw [sortedVersions_append, applyUpTo_insertTail_eq (t := t)
      (v := ⟨get_diff_operations baseline content, t⟩) rfl]
    rw [show applyVersionsUpTo t f.snapshot (sortedVersions f.file_versions)
        = some baseline from hread]
    simpa using (diff_roundtrip baseline content).1
  · intro t' ht'
    unfold read_version_at_timestamp
    dsimp only
    rw [sortedVersions_append, applyUpTo_insertTail_gt ht']

theorem commit_version_correct_witness :
    ∃ f', commit_version_at_timestamp ⟨[], [], 0⟩ ['h'] 5 = some f' ∧
      f'.file_versions = [] ++ [⟨get_diff_operations [] ['h'], 5⟩] ∧
      read_version_at_timestamp f' 5 = some ['h'] ∧
      ∀ t' < 5, read_version_at_timestamp f' t'
        = read_version_at_timestamp ⟨[], [], 0⟩ t' :=
  commit_version_correct ⟨[], [], 0⟩ ['h'] [] 5 (by simp) rfl

/-- C3 fails as stated: with a version at timestamp 4 lying strictly
between the commit (tc = 2) and the rollback (tr = 6),
`rollback_commit(1, 2, 6)` appends the compensating diff
`diff(read_at(2), read_at(1)) = diff("B", "") = [delete(0,1)]`, after
which `read_at(6) = "C"` while `read_at(1) = ""`: the rollback does not
restore the transaction-start state. -/
theorem rollback_compensation_counterexample :
    rollback_commit
        ⟨[], [⟨[DiffOp.insert 0 ['B']], 2⟩, ⟨[DiffOp.insert 1 ['C']], 4⟩], 0⟩ 1 2 6
        = some ⟨[], [⟨[DiffOp.insert 0 ['B']], 2⟩, ⟨[DiffOp.insert 1 ['C']], 4⟩,
            ⟨[DiffOp.delete 0 1], 6⟩], 0⟩
      ∧ read_version_at_timestamp ⟨[], [⟨[DiffOp.insert 0 ['B']], 2⟩,
            ⟨[DiffOp.insert 1 ['C']], 4⟩, ⟨[DiffOp.delete 0 1], 6⟩], 0⟩ 6 = some ['C']
      ∧ read_version_at_timestamp ⟨[], [⟨[DiffOp.insert 0 ['B']], 2⟩,
            ⟨[DiffOp.insert 1 ['C']], 4⟩, ⟨[DiffOp.delete 0 1], 6⟩], 0⟩ 1 = some []
      ∧ (some ['C'] : Option Str) ≠ (some [] : Option Str) := by
  exact ⟨by decide, by decide, by decide, by decide⟩

/-- C3 (amended): for `ts < tc < tr`, `rollback_commit(ts, tc, tr)` is a
no-op when no version has timestamp `tc`; otherwise — provided no
version timestamp lies in `(tc, tr]` — it appends the compensating
version `(tr, diff(read_at(tc), read_at(ts)))`, after which
`read_at(tr) = read_at(ts)` while `read_at(t)` for `tc ≤ t < tr` still
equals the committed state `read_at(tc)`. -/
theorem rollback_compensation (f : FileObject) (ts tc tr : Nat) (A B : Str)
    (hts : ts < tc) (htc : tc < tr)
    (hgap : ∀ v ∈ f.file_versions, ¬ (tc < v.timestamp ∧ v.timestamp ≤ tr))
    (hA : read_version_at_timestamp f ts = some A)
    (hB : read_version_at_timestamp f tc = some B) :
    ((∀ v ∈ f.file_versions, v.timestamp ≠ tc) →
        rollback_commit f ts tc tr = some f)
    ∧ ((∃ v ∈ f.file_versions, v.timestamp = tc) →
        ∃ f', rollback_commit f ts tc tr = some f' ∧
          f'.file_versions
            = f.file_versions ++ [⟨get_diff_operations B A, tr⟩] ∧
          read_version_at_timestamp f' tr = some A ∧
          ∀ t, tc ≤ t → t < tr →
            read_version_at_timestamp f' t = read_version_at_timestamp f t ∧
            read_version_at_timestamp f t = some B) := by
  constructor
  · intro hno
    unfold rollback_commit
    rw [if_neg ?hcond]
    case hcond =>
      simp only [List.any_eq_true, decide_eq_true_eq]
      rintro ⟨v, hv, he⟩
      exact hno v hv he
  · intro hex
    have hany : (f.file_versions.any fun v => decide (v.timestamp = tc)) = true := by
      simp only [List.any_eq_true, decide_eq_true_eq]
      exact hex
    have hBr : read_version_at_timestamp f tr = some B := by
      rw [@read_at_congr f tr tc ?hc]
      · exact hB
      case hc =>
        intro v hv
        have := hgap v hv
        constructor <;> intro <;> omega
    have hro : rollback_commit f ts tc tr
        = some { f with file_versions :=
            f.file_versions ++ [⟨get_diff_operations B A, tr⟩] } := by
      unfold rollback_commit
      rw [if_pos hany, hA, hB]
    refine ⟨_, hro, rfl, ?_, ?_⟩
    · unfold read_version_at_timestamp
      dsimp only
      rw [sortedVersions_append, applyUpTo_insertTail_eq (t := tr)
        (v := ⟨get_diff_operations B A, tr⟩) rfl]
      rw [show applyVersionsUpTo tr f.snapshot (sortedVersions f.file_versions)
          = some B from hBr]
      simpa using (diff_roundtrip B A).1
    · intro t h1 h2
      constructor
      · unfold read_version_at_timestamp
        dsimp only
        rw [sortedVersions_append, applyUpTo_insertTail_gt h2]
      · rw [@read_at_congr f t tc ?hc2]
        · exact hB
        case hc2 =>
          intro v hv
          have := hgap v hv
          constructor <;> intro <;> omega

theorem rollback_compensation_witness :
    ((∀ v ∈ ([⟨[DiffOp.insert 0 ['B']], 2⟩] : List FileVersion), v.timestamp ≠ 2) →
        rollback_commit ⟨[], [⟨[DiffOp.insert 0 ['B']], 2⟩], 0⟩ 1 2 6
          = some ⟨[], [⟨[DiffOp.insert 0 ['B']], 2⟩], 0⟩)
    ∧ ((∃ v ∈ ([⟨[DiffOp.insert 0 ['B']], 2⟩] : List FileVersion), v.timestamp = 2) →
        ∃ f', rollback_commit ⟨[], [⟨[DiffOp.insert 0 ['B']], 2⟩], 0⟩ 1 2 6 = some f' ∧
          f'.file_versions
            = [⟨[DiffOp.insert 0 ['B']], 2⟩] ++ [⟨get_diff_operations ['B'] [], 6⟩] ∧
          read_version_at_timestamp f' 6 = some [] ∧
          ∀ t, 2 ≤ t → t < 6 →
            read_version_at_timestamp f' t
              = read_version_at_timestamp ⟨[], [⟨[DiffOp.insert 0 ['B']], 2⟩], 0⟩ t ∧
            read_version_at_timestamp ⟨[], [⟨[DiffOp.insert 0 ['B']], 2⟩], 0⟩ t
              = some ['B']) :=
  rollback_compensation ⟨[], [⟨[DiffOp.insert 0 ['B']], 2⟩], 0⟩ 1 2 6 [] ['B']
    (by decide) (by decide) (by decide) (by decide) (by decide)

/-- C5: `apply_diff_operations` processes a batch in descending `start`
order against the original base string: for content `"ABCDEF"` and the
batch `[insert(0,"<"), delete(2,4), replace(5,6,"!")]` given in any
order, the result is `"<ABE!"`. -/
theorem apply_descending_example (ops : List DiffOp)
    (h : ops.Perm [DiffOp.insert 0 ['<'], DiffOp.delete 2 4,
      DiffOp.replace 5 6 ['!']]) :
    apply_diff_operations ['A', 'B', 'C', 'D', 'E', 'F'] ops
      = some ['<', 'A', 'B', 'E', '!'] := by
  have hvalid : validate_operations ['A', 'B', 'C', 'D', 'E', 'F'] ops = true := by
    rw [validate_operations, List.all_eq_true]
    intro op hop
    have hmem : op ∈ [DiffOp.insert 0 ['<'], DiffOp.delete 2 4,
        DiffOp.replace 5 6 ['!']] := h.mem_iff.mp hop
    simp only [List.mem_cons, List.mem_singleton] at hmem
    rcases hmem with he | he | he | he <;> first | (rw [he]; decide) | simp at he
  have hsorted : sortByStartDesc ops
      = [DiffOp.replace 5 6 ['!'], DiffOp.delete 2 4, DiffOp.insert 0 ['<']] := by
    symm
    apply sorted_desc_unique
    · exact List.Perm.trans (by decide) (h.symm.trans (List.perm_insertionSort _ ops).symm)
    · decide
    · haveI : IsTotal DiffOp (fun u v => v.start ≤ u.start) :=
        ⟨fun u v => Nat.le_total v.start u.start⟩
      haveI : IsTrans DiffOp (fun u v => v.start ≤ u.start) :=
        ⟨fun _ _ _ h1 h2 => le_trans h2 h1⟩
      exact List.sorted_insertionSort _ _
  rw [apply_diff_operations, if_pos hvalid, hsorted]
  decide

theorem apply_descending_example_witness :
    apply_diff_operations ['A', 'B', 'C', 'D', 'E', 'F']
        [DiffOp.insert 0 ['<'], DiffOp.delete 2 4, DiffOp.replace 5 6 ['!']]
      = some ['<', 'A', 'B', 'E', '!'] :=
  apply_descending_example _ (List.Perm.refl _)

/-- C8 fails on the code: on the success path `compact_file` decrements
`_active_transaction_count` (never having incremented it), driving the
counter from 0 to −1 — the claim (and §4.D of the spec, which §9 notes
deliberately omits the decrement as an apparent bug) says compaction
never modifies the counter. -/
theorem compact_file_decrements_count :
    compact_file ⟨[], [⟨[DiffOp.insert 0 ['A']], 1⟩], 0⟩ 1
        = some (true, ⟨['A'], [], -1⟩)
      ∧ (⟨['A'], [], -1⟩ : FileObject).active_transaction_count
          ≠ (⟨[], [⟨[DiffOp.insert 0 ['A']], 1⟩], 0⟩ : FileObject).active_transaction_count := by
  exact ⟨by decide, by decide⟩

/-! ## Lock-manager policy (claim C6) -/

theorem alGet_alSet_self {β : Type} (k : String) (v : β) :
    ∀ l : List (String × β), alGet k (alSet k v l) = some v := by
  intro l
  induction l with
  | nil => simp [alSet, alGet]
  | cons p rest ih =>
    obtain ⟨k', v'⟩ := p
    by_cases h : k' = k
    · subst h
      simp [alSet, alGet]
    · simp [alSet, alGet, h, ih]

theorem alGet_alSet_ne {β : Type} {k k' : String} (v : β) (h : k' ≠ k) :
    ∀ l : List (String × β), alGet k' (alSet k v l) = alGet k' l := by
  have h1 : ¬ k = k' := fun he => h he.symm
  intro l
  induction l with
  | nil => simp [alSet, alGet, h1]
  | cons p rest ih =>
    obtain ⟨k0, v0⟩ := p
    by_cases h0 : k0 = k
    · subst h0
      simp [alSet, alGet, h1]
    · simp only [alSet, if_neg h0, alGet]
      rw [ih]

theorem alGet_alDel_ne {β : Type} {k k' : String} (h : k' ≠ k) :
    ∀ l : List (String × β), alGet k' (alDel k l) = alGet k' l := by
  have h1 : ¬ k = k' := fun he => h he.symm
  intro l
  induction l with
  | nil => simp [alDel]
  | cons p rest ih =>
    obtain ⟨k0, v0⟩ := p
    by_cases h0 : k0 = k
    · subst h0
      simp [alDel, alGet, h1]
    · simp only [alDel, if_neg h0, alGet]
      rw [ih]

theorem alGet_none_of_not_mem {β : Type} {k : String} :
    ∀ {l : List (String × β)}, k ∉ l.map Prod.fst → alGet k l = none := by
  intro l
  induction l with
  | nil => intro _; rfl
  | cons p rest ih =>
    obtain ⟨k0, v0⟩ := p
    intro h
    simp only [List.map_cons, List.mem_cons] at h
    push_neg at h
    have h1 : ¬ k0 = k := fun he => h.1 he.symm
    simp [alGet, h1, ih h.2]

theorem alGet_alDel_self {β : Type} {k : String} :
    ∀ {l : List (String × β)}, (l.map Prod.fst).Nodup →
      alGet k (alDel k l) = none := by
  intro l
  induction l with
  | nil => intro _; rfl
  | cons p rest ih =>
    obtain ⟨k0, v0⟩ := p
    intro hnd
    simp only [List.map_cons, List.nodup_cons] at hnd
    by_cases h0 : k0 = k
    · subst h0
      simp only [alDel, eq_self_iff_true, if_true]
      exact alGet_none_of_not_mem hnd.1
    · simp [alDel, alGet, h0, ih hnd.2]

theorem keys_alSet_mem {β : Type} {k k' : String} (v : β) :
    ∀ {l : List (String × β)}, k' ∈ (alSet k v l).map Prod.fst →
      k' = k ∨ k' ∈ l.map Prod.fst := by
  intro l
  induction l with
  | nil =>
    intro h
    simp only [alSet, List.map_cons, List.map_nil, List.mem_singleton] at h
    exact Or.inl h
  | cons p rest ih =>
    obtain ⟨k0, v0⟩ := p
    intro h
    by_cases h0 : k0 = k
    · subst h0
      simp only [alSet, eq_self_iff_true, if_true, List.map_cons, List.mem_cons] at h
      rcases h with he | hm
      · exact Or.inl he
      · exact Or.inr (List.mem_cons_of_mem _ hm)
    · simp only [alSet, if_neg h0, List.map_cons, List.mem_cons] at h
      rcases h with he | hm
      · exact Or.inr (by simp [he])
      · rcases ih hm with he | hm'
        · exact Or.inl he
        · exact Or.inr (List.mem_cons_of_mem _ hm')

theorem keys_alSet_nodup {β : Type} (k : String) (v : β) :
    ∀ {l : List (String × β)}, (l.map Prod.fst).Nodup →
      ((alSet k v l).map Prod.fst).Nodup := by
  intro l
  induction l with
  | nil => intro _; simp [alSet]
  | cons p rest ih =>
    obtain ⟨k0, v0⟩ := p
    intro hnd
    simp only [List.map_cons, List.nodup_cons] at hnd
    by_cases h0 : k0 = k
    · subst h0
      simp only [alSet, eq_self_iff_true, if_true, List.map_cons, List.nodup_cons]
      exact hnd
    · simp only [alSet, if_neg h0, List.map_cons, List.nodup_cons]
      refine ⟨?_, ih hnd.2⟩
      intro hmem
      rcases keys_alSet_mem v hmem with he | hm
      · exact h0 he
      · exact hnd.1 hm

theorem keys_alDel_mem {β : Type} {k k' : String} :
    ∀ {l : List (String × β)}, k' ∈ (alDel k l).map Prod.fst →
      k' ∈ l.map Prod.fst := by
  intro l
  induction l with
  | nil => intro h; simp [alDel] at h
  | cons p rest ih =>
    obtain ⟨k0, v0⟩ := p
    intro h
    by_cases h0 : k0 = k
    · subst h0
      simp only [alDel, eq_self_iff_true, if_true] at h
      simp [h]
    · simp only [alDel, if_neg h0, List.map_cons, List.mem_cons] at h
      rcases h with he | hm
      · simp [he]
      · simp [ih hm]

theorem keys_alDel_nodup {β : Type} (k : String) :
    ∀ {l : List (String × β)}, (l.map Prod.fst).Nodup →
      ((alDel k l).map Prod.fst).Nodup := by
  intro l
  induction l with
  | nil => intro _; simp [alDel]
  | cons p rest ih =>
    obtain ⟨k0, v0⟩ := p
    intro hnd
    simp only [List.map_cons, List.nodup_cons] at hnd
    by_cases h0 : k0 = k
    · subst h0
      simp only [alDel, eq_self_iff_true, if_true]
      exact hnd.2
    · simp only [alDel, if_neg h0, List.map_cons, List.nodup_cons]
      exact ⟨fun hm => hnd.1 (keys_alDel_mem hm), ih hnd.2⟩

theorem acquire_lock_wf {locks : LockTable} (h : LockTableWF locks)
    (fid txn : String) (req : LockType) :
    LockTableWF (acquire_lock locks fid txn req).2 := by
  unfold acquire_lock
  cases hget : alGet fid locks with
  | none =>
    refine ⟨keys_alSet_nodup _ _ h.1, ?_⟩
    intro fid' L' h'
    by_cases he : fid' = fid
    · subst he
      rw [alGet_alSet_self] at h'
      cases h'
      refine ⟨by simp, by simp, fun _ => by simp⟩
    · rw [alGet_alSet_ne _ he] at h'
      exact h.2 fid' L' h'
  | some L =>
    dsimp only
    split
    · split
      · exact h
      · exact h
    · split
      · rename_i hmem hreq
        refine ⟨keys_alSet_nodup _ _ h.1, ?_⟩
        intro fid' L' h'
        by_cases he : fid' = fid
        · subst he
          rw [alGet_alSet_self] at h'
          cases h'
          obtain ⟨hne, hnd, _⟩ := h.2 _ L hget
          refine ⟨by simp, ?_, ?_⟩
          · rw [List.nodup_append]
            refine ⟨hnd, List.nodup_singleton _, ?_⟩
            intro a ha hb
            rw [List.mem_singleton] at hb
            subst hb
            exact hmem ha
          · intro hEx
            have hEx' : L.lock_type = LockType.EXCLUSIVE := hEx
            rw [hreq.2] at hEx'
            exact LockType.noConfusion hEx'
        · rw [alGet_alSet_ne _ he] at h'
          exact h.2 fid' L' h'
      · exact h

theorem release_lock_wf {locks : LockTable} (h : LockTableWF locks)
    (fid txn : String) :
    LockTableWF (release_lock locks fid txn) := by
  unfold release_lock
  cases hget : alGet fid locks with
  | none => exact h
  | some L =>
    dsimp only
    split
    · rename_i hmem
      split
      · refine ⟨keys_alDel_nodup _ h.1, ?_⟩
        intro fid' L' h'
        by_cases he : fid' = fid
        · subst he
          rw [alGet_alDel_self h.1] at h'
          cases h'
        · rw [alGet_alDel_ne he] at h'
          exact h.2 fid' L' h'
      · rename_i hne
        refine ⟨keys_alSet_nodup _ _ h.1, ?_⟩
        intro fid' L' h'
        by_cases he : fid' = fid
        · subst he
          rw [alGet_alSet_self] at h'
          cases h'
          obtain ⟨_, hnd, hex⟩ := h.2 _ L hget
          refine ⟨hne, hnd.erase _, ?_⟩
          intro hEx
          have hEx' : L.lock_type = LockType.EXCLUSIVE := hEx
          have hlen := hex hEx'
          obtain ⟨a, ha⟩ := List.length_eq_one.mp hlen
          rw [ha] at hmem
          rw [List.mem_singleton] at hmem
          subst hmem
          rw [ha] at hne
          simp [List.erase_cons] at hne
        · rw [alGet_alSet_ne _ he] at h'
          exact h.2 fid' L' h'
    · exact h

theorem runLockOps_wf (ops : List LockOp) : LockTableWF (runLockOps ops) := by
  unfold runLockOps
  have base : LockTableWF [] := ⟨by simp, fun fid L h => by cases h⟩
  generalize hl : ([] : LockTable) = l0
  rw [hl] at base
  clear hl
  induction ops generalizing l0 with
  | nil => exact base
  | cons op rest ih =>
    rw [List.foldl_cons]
    apply ih
    cases op with
    | acquire fid txn req => exact acquire_lock_wf base fid txn req
    | release fid txn => exact release_lock_wf base fid txn

/-- C6: over every sequence of acquire/release calls from the empty
table, a SHARED entry may hold any number of distinct transaction ids
while an EXCLUSIVE entry has exactly one holder (part 1, with part 2
showing SHARED admits each new distinct holder); a holder of a SHARED
entry requesting EXCLUSIVE on the same file is refused with no state
change (part 3); release by a non-holder is a no-op (part 4); and the
entry is deleted exactly when its holder set becomes empty (part 5). -/
theorem lock_manager_policy :
    (∀ (ops : List LockOp) (fid : String) (L : FileLock),
        alGet fid (runLockOps ops) = some L →
        L.txn_ids ≠ [] ∧ L.txn_ids.Nodup ∧
          (L.lock_type = LockType.EXCLUSIVE → L.txn_ids.length = 1))
    ∧ (∀ (locks : LockTable) (fid txn : String) (L : FileLock),
        alGet fid locks = some L → L.lock_type = LockType.SHARED →
        txn ∉ L.txn_ids →
        acquire_lock locks fid txn LockType.SHARED
          = (true, alSet fid ⟨L.lock_type, L.txn_ids ++ [txn]⟩ locks))
    ∧ (∀ (locks : LockTable) (fid txn : String) (L : FileLock),
        alGet fid locks = some L → txn ∈ L.txn_ids →
        L.lock_type = LockType.SHARED →
        acquire_lock locks fid txn LockType.EXCLUSIVE = (false, locks))
    ∧ (∀ (locks : LockTable) (fid txn : String),
        (∀ L, alGet fid locks = some L → txn ∉ L.txn_ids) →
        release_lock locks fid txn = locks)
    ∧ (∀ (locks : LockTable) (fid txn : String) (L : FileLock),
        LockTableWF locks →
        alGet fid locks = some L → txn ∈ L.txn_ids →
        (L.txn_ids.erase txn = [] →
          alGet fid (release_lock locks fid txn) = none)
        ∧ (L.txn_ids.erase txn ≠ [] →
          alGet fid (release_lock locks fid txn)
            = some ⟨L.lock_type, L.txn_ids.erase txn⟩)) := by
  refine ⟨?_, ?_, ?_, ?_, ?_⟩
  · intro ops fid L hget
    exact (runLockOps_wf ops).2 fid L hget
  · intro locks fid txn L hget hSh hnm
    simp only [acquire_lock, hget]
    rw [if_neg hnm, if_pos ⟨trivial, hSh⟩]
  · intro locks fid txn L hget hmem hSh
    simp only [acquire_lock, hget]
    rw [if_pos hmem, if_pos ⟨hSh, trivial⟩]
  · intro locks fid txn hnm
    unfold release_lock
    cases hget : alGet fid locks with
    | none => rfl
    | some L =>
      dsimp only
      rw [if_neg (hnm L hget)]
  · intro locks fid txn L hwf hget hmem
    simp only [release_lock, hget]
    rw [if_pos hmem]
    constructor
    · intro hemp
      rw [if_pos hemp]
      exact alGet_alDel_self hwf.1
    · intro hne
      rw [if_neg hne]
      exact alGet_alSet_self _ _ _

theorem lock_manager_policy_witness :
    acquire_lock [("f", ⟨LockType.SHARED, ["t1"]⟩)] "f" "t2" LockType.SHARED
      = (true, alSet "f" ⟨LockType.SHARED, ["t1"] ++ ["t2"]⟩
          [("f", ⟨LockType.SHARED, ["t1"]⟩)]) :=
  lock_manager_policy.2.1 [("f", ⟨LockType.SHARED, ["t1"]⟩)] "f" "t2"
    ⟨LockType.SHARED, ["t1"]⟩ (by decide) rfl (by decide)

/-! ## Transaction-engine claims (C7, C9, C10) -/

/-- C9: an ACTIVE transaction at READ_COMMITTED or READ_UNCOMMITTED
refuses `write` with `WriteNotPermittedAtIsolation` and the whole state
— in particular the modification buffer — is exactly as before. -/
theorem write_forbidden_at_read_isolation (s : Engine) (file_id : String)
    (batch : List DiffOp) (now : Nat)
    (hactive : s.is_active = true)
    (hiso : s.isolation_level = IsolationLevel.READ_COMMITTED ∨
      s.isolation_level = IsolationLevel.READ_UNCOMMITTED) :
    write_file s file_id batch now
      = (.error .WriteNotPermittedAtIsolation, s) := by
  unfold write_file validateTxnIsActive
  rw [if_pos hactive]
  dsimp only
  rw [if_pos hiso]

theorem write_forbidden_at_read_isolation_witness :
    write_file
        ⟨"t", 0, IsolationLevel.READ_COMMITTED, true, [],
          [("t", ⟨0, none, TransactionStatus.ACTIVE⟩)], [], []⟩ "f"
        [DiffOp.insert 0 ['x']] 3
      = (.error .WriteNotPermittedAtIsolation,
        ⟨"t", 0, IsolationLevel.READ_COMMITTED, true, [],
          [("t", ⟨0, none, TransactionStatus.ACTIVE⟩)], [], []⟩) :=
  write_forbidden_at_read_isolation _ "f" [DiffOp.insert 0 ['x']] 3 rfl (Or.inl rfl)

/-- C7 fails as stated: committing records COMMITTED, but a subsequent
operation on the now-inactive transaction records FAILED over it, so the
terminal status does not remain observable, and FAILED is recorded
precisely when the transaction was NOT active at entry. -/
theorem terminal_status_overwritten_counterexample :
    (commit ⟨"t", 0, IsolationLevel.SNAPSHOT, true, [],
        [("t", ⟨0, none, TransactionStatus.ACTIVE⟩)], [], []⟩ 5 5).1 = .ok ()
    ∧ get_transaction_status
        (commit ⟨"t", 0, IsolationLevel.SNAPSHOT, true, [],
          [("t", ⟨0, none, TransactionStatus.ACTIVE⟩)], [], []⟩ 5 5).2.registry "t"
        = some ⟨0, some 5, TransactionStatus.COMMITTED⟩
    ∧ (abort (commit ⟨"t", 0, IsolationLevel.SNAPSHOT, true, [],
        [("t", ⟨0, none, TransactionStatus.ACTIVE⟩)], [], []⟩ 5 5).2 6).1
        = .error .InactiveTransaction
    ∧ get_transaction_status
        (abort (commit ⟨"t", 0, IsolationLevel.SNAPSHOT, true, [],
          [("t", ⟨0, none, TransactionStatus.ACTIVE⟩)], [], []⟩ 5 5).2 6).2.registry "t"
        = some ⟨0, some 6, TransactionStatus.FAILED⟩
    ∧ TransactionStatus.FAILED ≠ TransactionStatus.COMMITTED := by
  exact ⟨by rfl, by rfl, by rfl, by rfl, by decide⟩

/-- C7 (amended): any operation (read, write, commit, abort) on a
transaction that is no longer active signals `InactiveTransaction` and
overwrites the registry entry with FAILED (so the previous terminal
status is NOT preserved); FAILED is recorded precisely when the
transaction was not active at entry. -/
theorem inactive_op_records_failed (s : Engine) (td : TransactionData)
    (fid : String) (batch : List DiffOp) (ct now : Nat)
    (hact : s.is_active = false)
    (hreg : alGet s.txn_id s.registry = some td) :
    write_file s fid batch now
        = (.error .InactiveTransaction, failedState s td now)
    ∧ read_file s fid now = (.error .InactiveTransaction, failedState s td now)
    ∧ commit s ct now = (.error .InactiveTransaction, failedState s td now)
    ∧ abort s now = (.error .InactiveTransaction, failedState s td now)
    ∧ get_transaction_status (failedState s td now).registry s.txn_id
        = some ⟨td.start_time, some now, TransactionStatus.FAILED⟩ := by
  have hval : validateTxnIsActive s now
      = (.error .InactiveTransaction, failedState s td now) := by
    unfold validateTxnIsActive endTransaction update_transaction_metadata failedState
    rw [if_neg (by rw [hact]; simp), hreg]
  refine ⟨?_, ?_, ?_, ?_, ?_⟩
  · unfold write_file
    rw [hval]
  · unfold read_file
    rw [hval]
  · unfold commit
    rw [hval]
  · unfold abort
    rw [hval]
  · unfold failedState get_transaction_status
    dsimp only
    exact alGet_alSet_self _ _ _

theorem inactive_op_records_failed_witness :
    write_file
        ⟨"t", 0, IsolationLevel.SNAPSHOT, false, [],
          [("t", ⟨0, some 5, TransactionStatus.COMMITTED⟩)], [], []⟩ "f" [] 6
        = (.error .InactiveTransaction,
          failedState
            ⟨"t", 0, IsolationLevel.SNAPSHOT, false, [],
              [("t", ⟨0, some 5, TransactionStatus.COMMITTED⟩)], [], []⟩
            ⟨0, some 5, TransactionStatus.COMMITTED⟩ 6) :=
  (inactive_op_records_failed
    ⟨"t", 0, IsolationLevel.SNAPSHOT, false, [],
      [("t", ⟨0, some 5, TransactionStatus.COMMITTED⟩)], [], []⟩
    ⟨0, some 5, TransactionStatus.COMMITTED⟩ "f" [] 9 6 rfl rfl).1

/-- C10: for an ACTIVE SNAPSHOT transaction, writing an empty diff batch
still registers the file in the modification buffer (without appending
the batch), so the subsequent commit is not the no-op path: it requires
the EXCLUSIVE lock on that file (a SHARED holder makes it fail with
`LockConflict`) and on success appends a version at `commit_time` to the
file object even though the materialized content is unchanged. -/
theorem empty_write_registers_and_commits
    (txn fid : String) (st ct now : Nat)
    (reg : Registry) (td : TransactionData) (F : FileObject) (base : Str)
    (hreg : alGet txn reg = some td)
    (hread : read_version_at_timestamp F st = some base)
    (hvers : ∀ v ∈ F.file_versions, v.timestamp ≤ st)
    (hct : st < ct) :
    write_file ⟨txn, st, IsolationLevel.SNAPSHOT, true, [], reg, [], [(fid, F)]⟩
        fid [] now
      = (.ok (), ⟨txn, st, IsolationLevel.SNAPSHOT, true, [(fid, [])], reg, [],
          [(fid, F)]⟩)
    ∧ commit ⟨txn, st, IsolationLevel.SNAPSHOT, true, [(fid, [])], reg, [],
          [(fid, F)]⟩ ct now
      = (.ok (), ⟨txn, st, IsolationLevel.SNAPSHOT, false, [],
          alSet txn ⟨td.start_time, some now, TransactionStatus.COMMITTED⟩ reg, [],
          [(fid, { F with file_versions := F.file_versions ++ [⟨[], ct⟩] })]⟩)
    ∧ read_version_at_timestamp
          { F with file_versions := F.file_versions ++ [⟨[], ct⟩] } ct
        = read_version_at_timestamp F ct
    ∧ ∀ other : String, other ≠ txn →
        commit ⟨txn, st, IsolationLevel.SNAPSHOT, true, [(fid, [])], reg,
            [(fid, ⟨LockType.SHARED, [other]⟩)], [(fid, F)]⟩ ct now
          = (.error .LockConflict,
            ⟨txn, st, IsolationLevel.SNAPSHOT, true, [(fid, [])], reg,
              [(fid, ⟨LockType.SHARED, [other]⟩)], [(fid, F)]⟩) := by
  have h_read_ct : read_version_at_timestamp F ct = some base := by
    rw [@read_at_congr F ct st ?hcg]
    · exact hread
    case hcg =>
      intro v hv
      have := hvers v hv
      constructor <;> intro <;> omega
  have h_cv : commit_version_at_timestamp F base ct
      = some { F with file_versions := F.file_versions ++ [⟨[], ct⟩] } := by
    unfold commit_version_at_timestamp
    rw [h_read_ct]
    dsimp only
    rw [(diff_roundtrip base base).2]
  have h_acq_sh : acquire_lock [(fid, ⟨LockType.EXCLUSIVE, [txn]⟩)] fid txn
      LockType.SHARED = (true, [(fid, ⟨LockType.EXCLUSIVE, [txn]⟩)]) := by
    unfold acquire_lock
    rw [show alGet fid [(fid, (⟨LockType.EXCLUSIVE, [txn]⟩ : FileLock))]
        = some ⟨LockType.EXCLUSIVE, [txn]⟩ from by simp [alGet]]
    dsimp only
    rw [if_pos (List.mem_singleton.mpr rfl), if_neg (by simp)]
  have h_rel : release_lock [(fid, ⟨LockType.EXCLUSIVE, [txn]⟩)] fid txn = [] := by
    unfold release_lock
    rw [show alGet fid [(fid, (⟨LockType.EXCLUSIVE, [txn]⟩ : FileLock))]
        = some ⟨LockType.EXCLUSIVE, [txn]⟩ from by simp [alGet]]
    dsimp only
    rw [if_pos (List.mem_singleton.mpr rfl), if_pos (by simp)]
    simp [alDel]
  have h_getfile : getFileByIsolationLevel
      ⟨txn, st, IsolationLevel.SNAPSHOT, true, [(fid, [])], reg,
        [(fid, ⟨LockType.EXCLUSIVE, [txn]⟩)], [(fid, F)]⟩ fid
      IsolationLevel.SNAPSHOT now
      = (.ok base, ⟨txn, st, IsolationLevel.SNAPSHOT, true, [(fid, [])], reg, [],
          [(fid, F)]⟩) := by
    unfold getFileByIsolationLevel
    rw [show alGet fid [(fid, F)] = some F from by simp [alGet]]
    dsimp only
    rw [h_acq_sh]
    dsimp only
    rw [if_neg (by simp), hread, h_rel]
  have h_rdfile : read_file
      ⟨txn, st, IsolationLevel.SNAPSHOT, true, [(fid, [])], reg,
        [(fid, ⟨LockType.EXCLUSIVE, [txn]⟩)], [(fid, F)]⟩ fid now
      = (.ok base, ⟨txn, st, IsolationLevel.SNAPSHOT, true, [(fid, [])], reg, [],
          [(fid, F)]⟩) := by
    unfold read_file validateTxnIsActive
    rw [if_pos rfl]
    dsimp only
    rw [h_getfile]
    dsimp only
    rw [show alGet fid [(fid, ([] : List (List DiffOp)))] = some [] from by
      simp [alGet]]
    rfl
  have h_cloop : commitLoop ct now
      ⟨txn, st, IsolationLevel.SNAPSHOT, true, [(fid, [])], reg,
        [(fid, ⟨LockType.EXCLUSIVE, [txn]⟩)], [(fid, F)]⟩ [(fid, [])] []
      = (.ok (), ⟨txn, st, IsolationLevel.SNAPSHOT, true, [(fid, [])], reg, [],
          [(fid, { F with file_versions := F.file_versions ++ [⟨[], ct⟩] })]⟩,
        [fid]) := by
    unfold commitLoop
    rw [h_rdfile]
    dsimp only
    rw [show alGet fid [(fid, F)] = some F from by simp [alGet]]
    dsimp only
    rw [h_cv]
    dsimp only
    rw [show alSet fid ({ F with file_versions := F.file_versions ++ [⟨[], ct⟩] })
        [(fid, F)]
        = [(fid, { F with file_versions := F.file_versions ++ [⟨[], ct⟩] })] from by
      simp [alSet]]
    rfl
  have h_aloop : acquireLoop txn [fid] [] ([] : LockTable)
      = (true, [fid], [(fid, ⟨LockType.EXCLUSIVE, [txn]⟩)]) := by
    unfold acquireLoop
    rw [show acquire_lock ([] : LockTable) fid txn LockType.EXCLUSIVE
        = (true, [(fid, ⟨LockType.EXCLUSIVE, [txn]⟩)]) from by
      simp [acquire_lock, alGet, alSet]]
    dsimp only
    rw [if_pos rfl]
    rfl
  refine ⟨rfl, ?_, ?_, ?_⟩
  · unfold commit validateTxnIsActive
    rw [if_pos rfl]
    dsimp only
    rw [if_neg (by simp)]
    simp only [List.map_cons, List.map_nil, List.insertionSort, List.orderedInsert]
    rw [h_aloop]
    dsimp only
    rw [h_cloop]
    dsimp only
    unfold endTransaction update_transaction_metadata
    dsimp only
    rw [hreg]
    rfl
  · unfold read_version_at_timestamp
    dsimp only
    rw [sortedVersions_append,
      applyUpTo_insertTail_eq (t := ct) (v := ⟨[], ct⟩) rfl,
      show applyVersionsUpTo ct F.snapshot (sortedVersions F.file_versions)
        = some base from h_read_ct]
    rfl
  · intro other hne
    have hnm : txn ∉ [other] := by
      simp only [List.mem_singleton]
      exact fun h => hne h.symm
    have hacq : acquire_lock [(fid, ⟨LockType.SHARED, [other]⟩)] fid txn
        LockType.EXCLUSIVE = (false, [(fid, ⟨LockType.SHARED, [other]⟩)]) := by
      unfold acquire_lock
      rw [show alGet fid [(fid, (⟨LockType.SHARED, [other]⟩ : FileLock))]
          = some ⟨LockType.SHARED, [other]⟩ from by simp [alGet]]
      dsimp only
      rw [if_neg hnm, if_neg (by simp)]
    unfold commit validateTxnIsActive
    rw [if_pos rfl]
    dsimp only
    rw [if_neg (by simp)]
    simp only [List.map_cons, List.map_nil, List.insertionSort, List.orderedInsert]
    unfold acquireLoop
    rw [hacq]
    rfl

theorem empty_write_registers_and_commits_witness :
    write_file ⟨"t", 0, IsolationLevel.SNAPSHOT, true, [],
        [("t", ⟨0, none, TransactionStatus.ACTIVE⟩)], [], [("f", ⟨[], [], 0⟩)]⟩
        "f" [] 1
      = (.ok (), ⟨"t", 0, IsolationLevel.SNAPSHOT, true, [("f", [])],
          [("t", ⟨0, none, TransactionStatus.ACTIVE⟩)], [], [("f", ⟨[], [], 0⟩)]⟩)
    ∧ commit ⟨"t", 0, IsolationLevel.SNAPSHOT, true, [("f", [])],
          [("t", ⟨0, none, TransactionStatus.ACTIVE⟩)], [], [("f", ⟨[], [], 0⟩)]⟩ 2 3
      = (.ok (), ⟨"t", 0, IsolationLevel.SNAPSHOT, false, [],
          alSet "t" ⟨0, some 3, TransactionStatus.COMMITTED⟩
            [("t", ⟨0, none, TransactionStatus.ACTIVE⟩)], [],
          [("f", { (⟨[], [], 0⟩ : FileObject) with
              file_versions := [] ++ [⟨[], 2⟩] })]⟩)
    ∧ read_version_at_timestamp
          { (⟨[], [], 0⟩ : FileObject) with file_versions := [] ++ [⟨[], 2⟩] } 2
        = read_version_at_timestamp ⟨[], [], 0⟩ 2
    ∧ ∀ other : String, other ≠ "t" →
        commit ⟨"t", 0, IsolationLevel.SNAPSHOT, true, [("f", [])],
            [("t", ⟨0, none, TransactionStatus.ACTIVE⟩)],
            [("f", ⟨LockType.SHARED, [other]⟩)], [("f", ⟨[], [], 0⟩)]⟩ 2 3
          = (.error .LockConflict,
            ⟨"t", 0, IsolationLevel.SNAPSHOT, true, [("f", [])],
              [("t", ⟨0, none, TransactionStatus.ACTIVE⟩)],
              [("f", ⟨LockType.SHARED, [other]⟩)], [("f", ⟨[], [], 0⟩)]⟩) :=
  empty_write_registers_and_commits "t" "f" 0 2 3
    [("t", ⟨0, none, TransactionStatus.ACTIVE⟩)] ⟨0, none, TransactionStatus.ACTIVE⟩
    ⟨[], [], 0⟩ [] rfl rfl (by simp) (by decide)

end FS
